import Mathlib

/-
Verification of `character_card_utils.py` (BrainDancev2): a shallow embedding
of the Tavern/SillyTavern character-card import/export module, with proofs
about its card codec, schema mapping and placeholder substitution.

Modelling conventions.

* Python strings are lists of Unicode scalar codepoints (`List Nat`);
  byte strings are lists of `Nat` bounded by 256 where it matters.
* JSON values are the inductive `JVal`; JSON numbers are modelled as
  integers (the module's card payloads carry no floats, which have no
  exact shallow embedding).
* The external imaging library (PIL) is a black box, per the module's
  four-operation contract: an opened image is represented by its metadata
  dictionary (`PILImage`), and PNG serialization output by the canvas
  description together with the attached `chara` text chunk.
* Fallible steps return `Option`/`Except`; a raised Python exception is
  `none` / `.error`.  Exception message texts coming from the external
  libraries are modelled by fixed placeholder strings; nothing proved here
  depends on their contents.
-/

/-! ## Strings and codepoints -/

/-- Codepoints of a Lean string literal, used to write concrete Python
strings readably. -/
def strOf (s : String) : List Nat := s.data.map Char.toNat

/-- A Unicode scalar value: what one element of a Python `str` may be
(lone surrogates are excluded, as `str.encode` rejects them). -/
def validCp (c : Nat) : Bool := c < 0xD800 || (0xE000 ≤ c && c < 0x110000)

/-! ## JSON values

`JVal` is the value domain of the module's card payloads: exactly what
`json.dumps` accepts and `json.loads` returns on them.  Object fields keep
their (insertion) order, as Python dicts do. -/

inductive JVal where
  | null
  | bool (b : Bool)
  | int (n : Int)
  | str (s : List Nat)
  | arr (xs : List JVal)
  | obj (kvs : List (List Nat × JVal))
deriving Repr

mutual

def JVal.beq : JVal → JVal → Bool
  | .null, .null => true
  | .bool a, .bool b => a = b
  | .int a, .int b => a = b
  | .str a, .str b => a = b
  | .arr a, .arr b => beqElems a b
  | .obj a, .obj b => beqKVs a b
  | _, _ => false

def beqElems : List JVal → List JVal → Bool
  | [], [] => true
  | a :: as, b :: bs => a.beq b && beqElems as bs
  | _, _ => false

def beqKVs : List (List Nat × JVal) → List (List Nat × JVal) → Bool
  | [], [] => true
  | (k, a) :: as, (l, b) :: bs => k = l && (a.beq b && beqKVs as bs)
  | _, _ => false

end

mutual

theorem JVal.beq_iff : ∀ a b : JVal, JVal.beq a b = true ↔ a = b
  | .null, b => by cases b <;> simp [JVal.beq]
  | .bool x, b => by cases b <;> simp [JVal.beq]
  | .int x, b => by cases b <;> simp [JVal.beq]
  | .str x, b => by cases b <;> simp [JVal.beq]
  | .arr xs, b => by
      cases b <;> simp [JVal.beq]
      exact beqElems_iff xs _
  | .obj kvs, b => by
      cases b <;> simp [JVal.beq]
      exact beqKVs_iff kvs _

theorem beqElems_iff : ∀ a b : List JVal, beqElems a b = true ↔ a = b
  | [], b => by cases b <;> simp [beqElems]
  | x :: xs, b => by
      cases b with
      | nil => simp [beqElems]
      | cons y ys => simp [beqElems, JVal.beq_iff x y, beqElems_iff xs ys]

theorem beqKVs_iff : ∀ a b : List (List Nat × JVal), beqKVs a b = true ↔ a = b
  | [], b => by cases b <;> simp [beqKVs]
  | (k, x) :: xs, b => by
      cases b with
      | nil => simp [beqKVs]
      | cons y ys =>
        cases y with
        | mk l v => simp [beqKVs, JVal.beq_iff x v, beqKVs_iff xs ys, and_assoc]

end

instance : DecidableEq JVal := fun a b =>
  decidable_of_iff (JVal.beq a b = true) (JVal.beq_iff a b)

mutual

/-- All string payloads of a JSON value consist of Unicode scalar values
(keys included): such values are what Python dict/str data can hold. -/
def JVal.validB : JVal → Bool
  | .null => true
  | .bool _ => true
  | .int _ => true
  | .str s => s.all validCp
  | .arr xs => validElems xs
  | .obj kvs => validKVs kvs

def validElems : List JVal → Bool
  | [] => true
  | x :: xs => x.validB && validElems xs

def validKVs : List (List Nat × JVal) → Bool
  | [] => true
  | (k, v) :: kvs => k.all validCp && (v.validB && validKVs kvs)

end

/-! ## JSON serialization

Embeds `json.dumps(card, ensure_ascii=False)` (source line 177): default
separators `", "` and `": "`, non-ASCII characters kept raw, `"`, `\` and
control characters escaped exactly as Python's encoder does. -/

/-- Lowercase hex digit, as used by Python's `\u00xy` escapes. -/
def hexDig (n : Nat) : Nat := if n < 10 then 48 + n else 87 + n

/-- One character of a JSON string body, as emitted with
`ensure_ascii=False`. -/
def escapeChar (c : Nat) : List Nat :=
  if c = 34 then [92, 34]
  else if c = 92 then [92, 92]
  else if c = 8 then [92, 98]
  else if c = 9 then [92, 116]
  else if c = 10 then [92, 110]
  else if c = 12 then [92, 102]
  else if c = 13 then [92, 114]
  else if c < 32 then [92, 117, 48, 48, hexDig (c / 16), hexDig (c % 16)]
  else [c]

def dumpStrBody : List Nat → List Nat
  | [] => []
  | c :: cs => escapeChar c ++ dumpStrBody cs

/-- A JSON string literal: quote, escaped body, quote. -/
def dumpStr (s : List Nat) : List Nat := 34 :: dumpStrBody s ++ [34]

/-- Base-10 digits of a natural number, most significant first (with `[0]`
for zero). -/
def natDigitsBE (n : Nat) : List Nat :=
  if n = 0 then [0] else (Nat.digits 10 n).reverse

/-- Decimal digit characters of a natural number. -/
def dumpNat (n : Nat) : List Nat := (natDigitsBE n).map (fun d => d + 48)

/-- Python's decimal rendering of an integer. -/
def dumpInt (n : Int) : List Nat :=
  if n < 0 then 45 :: dumpNat n.natAbs else dumpNat n.natAbs

mutual

/-- JSON text of a value, as `json.dumps(v, ensure_ascii=False)` emits it. -/
def JVal.dump : JVal → List Nat
  | .null => [110, 117, 108, 108]
  | .bool true => [116, 114, 117, 101]
  | .bool false => [102, 97, 108, 115, 101]
  | .int n => dumpInt n
  | .str s => dumpStr s
  | .arr xs => 91 :: dumpElems xs ++ [93]
  | .obj kvs => 123 :: dumpKVs kvs ++ [125]

/-- Array elements joined by the default `", "` separator. -/
def dumpElems : List JVal → List Nat
  | [] => []
  | [x] => x.dump
  | x :: y :: xs => x.dump ++ [44, 32] ++ dumpElems (y :: xs)

/-- Object members `"key": value` joined by `", "`. -/
def dumpKVs : List (List Nat × JVal) → List Nat
  | [] => []
  | [(k, v)] => dumpStr k ++ [58, 32] ++ v.dump
  | (k, v) :: m :: kvs => dumpStr k ++ [58, 32] ++ v.dump ++ [44, 32] ++ dumpKVs (m :: kvs)

end

/-! ## UTF-8

`card_json.encode('utf-8')` on the export side (source line 178) and the
byte decoding `json.loads` performs on the import side (line 50). -/

/-- UTF-8 bytes of one scalar value; `none` on a value Python's encoder
rejects (lone surrogates, out of range). -/
def utf8EncodeChar (c : Nat) : Option (List Nat) :=
  if c < 0x80 then some [c]
  else if c < 0x800 then some [0xC0 + c / 64, 0x80 + c % 64]
  else if 0xD800 ≤ c ∧ c < 0xE000 then none
  else if c < 0x10000 then some [0xE0 + c / 4096, 0x80 + c / 64 % 64, 0x80 + c % 64]
  else if c < 0x110000 then
    some [0xF0 + c / 262144, 0x80 + c / 4096 % 64, 0x80 + c / 64 % 64, 0x80 + c % 64]
  else none

def utf8Encode : List Nat → Option (List Nat)
  | [] => some []
  | c :: cs => do
      let l ← utf8EncodeChar c
      let r ← utf8Encode cs
      pure (l ++ r)

/-- A UTF-8 continuation byte. -/
def isCont (b : Nat) : Bool := 0x80 ≤ b && b < 0xC0

/-- Decode one UTF-8 sequence from the front of a byte list: the scalar
value and the remaining bytes.  Rejects bad lead bytes, truncated
sequences, overlong encodings, surrogates and out-of-range values, as
Python's strict decoder does. -/
def utf8Split (l : List Nat) : Option (Nat × List Nat) :=
  match l with
  | [] => none
  | b :: bs =>
    if b < 0x80 then some (b, bs)
    else if b < 0xC0 then none
    else if b < 0xE0 then
      match bs with
      | b1 :: rest =>
        if isCont b1 ∧ 0x80 ≤ (b - 0xC0) * 64 + (b1 - 0x80) then
          some ((b - 0xC0) * 64 + (b1 - 0x80), rest)
        else none
      | [] => none
    else if b < 0xF0 then
      match bs with
      | b1 :: b2 :: rest =>
        if isCont b1 ∧ isCont b2 ∧ 0x800 ≤ (b - 0xE0) * 4096 + (b1 - 0x80) * 64 + (b2 - 0x80) ∧
            validCp ((b - 0xE0) * 4096 + (b1 - 0x80) * 64 + (b2 - 0x80)) then
          some ((b - 0xE0) * 4096 + (b1 - 0x80) * 64 + (b2 - 0x80), rest)
        else none
      | _ => none
    else if b < 0xF8 then
      match bs with
      | b1 :: b2 :: b3 :: rest =>
        if isCont b1 ∧ isCont b2 ∧ isCont b3 ∧
            0x10000 ≤ (b - 0xF0) * 262144 + (b1 - 0x80) * 4096 + (b2 - 0x80) * 64 + (b3 - 0x80) ∧
            (b - 0xF0) * 262144 + (b1 - 0x80) * 4096 + (b2 - 0x80) * 64 + (b3 - 0x80) < 0x110000 then
          some ((b - 0xF0) * 262144 + (b1 - 0x80) * 4096 + (b2 - 0x80) * 64 + (b3 - 0x80), rest)
        else none
      | _ => none
    else none

/-- Decoding loop; the fuel is an upper bound on the number of decoded
characters, each step consuming at least one byte. -/
def utf8DecodeLoop : Nat → List Nat → Option (List Nat)
  | _, [] => some []
  | 0, _ :: _ => none
  | fuel + 1, b :: bs =>
    match utf8Split (b :: bs) with
    | some (c, rest) => (utf8DecodeLoop fuel rest).map (c :: ·)
    | none => none

/-- Full strict UTF-8 decoding of a byte list. -/
def utf8Decode (l : List Nat) : Option (List Nat) := utf8DecodeLoop l.length l

theorem utf8Split_of_encode (c : Nat) (lc : List Nat) (h : utf8EncodeChar c = some lc) :
    lc.length ≠ 0 ∧ (∀ b ∈ lc, b < 256) ∧ ∀ rest, utf8Split (lc ++ rest) = some (c, rest) := by
  simp only [utf8EncodeChar] at h
  by_cases h1 : c < 0x80
  · rw [if_pos h1] at h
    obtain rfl : [c] = lc := by simpa using h
    refine ⟨by simp, by intro b hb; simp at hb; omega, fun rest => ?_⟩
    simp only [List.cons_append, List.nil_append, utf8Split]
    rw [if_pos h1]
  · rw [if_neg h1] at h
    by_cases h2 : c < 0x800
    · rw [if_pos h2] at h
      obtain rfl : [0xC0 + c / 64, 0x80 + c % 64] = lc := by simpa using h
      refine ⟨by simp, by intro b hb; simp at hb; rcases hb with hb | hb <;> omega,
        fun rest => ?_⟩
      simp only [List.cons_append, List.nil_append, utf8Split, isCont]
      rw [if_neg (by omega), if_neg (by omega), if_pos (by omega),
        if_pos (by refine ⟨by simp; omega, by omega⟩)]
      refine congrArg some (Prod.ext ?_ rfl)
      simp
      omega
    · rw [if_neg h2] at h
      by_cases hs : 0xD800 ≤ c ∧ c < 0xE000
      · rw [if_pos hs] at h; exact absurd h (by simp)
      · rw [if_neg hs] at h
        by_cases h3 : c < 0x10000
        · rw [if_pos h3] at h
          obtain rfl : [0xE0 + c / 4096, 0x80 + c / 64 % 64, 0x80 + c % 64] = lc := by simpa using h
          refine ⟨by simp, by intro b hb; simp at hb; rcases hb with hb | hb | hb <;> omega,
            fun rest => ?_⟩
          simp only [List.cons_append, List.nil_append, utf8Split, isCont]
          have hv : validCp ((0xE0 + c / 4096 - 0xE0) * 4096 + (0x80 + c / 64 % 64 - 0x80) * 64 +
              (0x80 + c % 64 - 0x80)) = true := by
            simp only [validCp, Bool.or_eq_true, Bool.and_eq_true, decide_eq_true_eq]
            omega
          rw [if_neg (by omega), if_neg (by omega), if_neg (by omega), if_pos (by omega),
            if_pos (by exact ⟨by simp; omega, by simp; omega, by omega, hv⟩)]
          refine congrArg some (Prod.ext ?_ rfl)
          simp
          omega
        · rw [if_neg h3] at h
          by_cases h4 : c < 0x110000
          · rw [if_pos h4] at h
            obtain rfl : [0xF0 + c / 262144, 0x80 + c / 4096 % 64, 0x80 + c / 64 % 64,
                0x80 + c % 64] = lc := by simpa using h
            refine ⟨by simp, by intro b hb; simp at hb; rcases hb with hb | hb | hb | hb <;> omega,
              fun rest => ?_⟩
            simp only [List.cons_append, List.nil_append, utf8Split, isCont]
            rw [if_neg (by omega), if_neg (by omega), if_neg (by omega), if_neg (by omega),
              if_pos (by omega),
              if_pos (by refine ⟨by simp; omega, by simp; omega, by simp; omega, by omega, by omega⟩)]
            refine congrArg some (Prod.ext ?_ rfl)
            simp
            omega
          · rw [if_neg h4] at h; exact absurd h (by simp)

theorem utf8DecodeLoop_of_encode : ∀ (l bs : List Nat) (fuel : Nat),
    utf8Encode l = some bs → bs.length ≤ fuel → utf8DecodeLoop fuel bs = some l
  | [], bs, fuel, h, _ => by
      obtain rfl : bs = [] := by simpa [utf8Encode] using h.symm
      cases fuel <;> rfl
  | c :: cs, bs, fuel, h, hlen => by
      simp only [utf8Encode, Option.bind_eq_bind, Option.bind_eq_some] at h
      obtain ⟨lc, hlc, r, hr, rfl⟩ := by
        simpa only [Option.pure_def, Option.some.injEq, exists_eq_right'] using h
      obtain ⟨hne, _, hsplit⟩ := utf8Split_of_encode c lc hlc
      obtain ⟨b, lc', rfl⟩ : ∃ b lc', lc = b :: lc' := by
        cases lc with
        | nil => exact absurd rfl hne
        | cons b lc' => exact ⟨b, lc', rfl⟩
      obtain ⟨fuel', rfl⟩ : ∃ fuel', fuel = fuel' + 1 := by
        cases fuel with
        | zero => simp at hlen
        | succ fuel' => exact ⟨fuel', rfl⟩
      have step := hsplit r
      simp only [List.cons_append] at step ⊢
      have ih := utf8DecodeLoop_of_encode cs r fuel' hr (by simp at hlen; omega)
      rw [utf8DecodeLoop, step]
      simp [ih]

/-- UTF-8 round trip: encoding a scalar-valued string succeeds, the result
is bytes, and strict decoding restores the string. -/
theorem utf8Encode_roundtrip : ∀ l : List Nat, (∀ c ∈ l, validCp c = true) →
    ∃ bs, utf8Encode l = some bs ∧ (∀ b ∈ bs, b < 256) ∧ utf8Decode bs = some l := by
  intro l h
  induction l with
  | nil => exact ⟨[], rfl, by simp, rfl⟩
  | cons c cs ih =>
    have hc : validCp c = true := h c (by simp)
    obtain ⟨bs', hbs', hb', _⟩ := ih (fun x hx => h x (by simp [hx]))
    obtain ⟨lc, hlc⟩ : ∃ lc, utf8EncodeChar c = some lc := by
      simp only [utf8EncodeChar]
      simp only [validCp, Bool.or_eq_true, Bool.and_eq_true, decide_eq_true_eq] at hc
      split <;> [exact ⟨_, rfl⟩; skip]
      split <;> [exact ⟨_, rfl⟩; skip]
      split <;> [omega; skip]
      split <;> [exact ⟨_, rfl⟩; skip]
      split <;> [exact ⟨_, rfl⟩; omega]
    obtain ⟨_, hlt, _⟩ := utf8Split_of_encode c lc hlc
    refine ⟨lc ++ bs', by simp [utf8Encode, hlc, hbs'], ?_, ?_⟩
    · intro b hb
      rcases List.mem_append.mp hb with hb | hb
      · exact hlt b hb
      · exact hb' b hb
    · exact utf8DecodeLoop_of_encode (c :: cs) (lc ++ bs') (lc ++ bs').length
        (by simp [utf8Encode, hlc, hbs']) le_rfl

/-! ## Base64

`base64.b64encode(...)` / `base64.b64decode(...)` on the canonical
alphabet with `=` padding (source lines 49 and 178). -/

/-- Standard base64 alphabet: sextet to ASCII code. -/
def b64T (s : Nat) : Nat :=
  if s < 26 then 65 + s
  else if s < 52 then 71 + s
  else if s < 62 then s - 4
  else if s = 62 then 43
  else 47

/-- Inverse alphabet: ASCII code back to sextet. -/
def b64D (c : Nat) : Option Nat :=
  if 65 ≤ c ∧ c ≤ 90 then some (c - 65)
  else if 97 ≤ c ∧ c ≤ 122 then some (c - 71)
  else if 48 ≤ c ∧ c ≤ 57 then some (c + 4)
  else if c = 43 then some 62
  else if c = 47 then some 63
  else none

theorem b64D_T (s : Nat) (h : s < 64) : b64D (b64T s) = some s := by
  simp only [b64T, b64D]
  split_ifs <;> first | (refine congrArg some ?_; omega) | omega

theorem b64T_ne_61 (s : Nat) (h : s < 64) : b64T s ≠ 61 := by
  simp only [b64T]
  split_ifs <;> omega

/-- Encode bytes three at a time, with `=` padding on a short tail. -/
def b64encode : List Nat → List Nat
  | [] => []
  | [b] => [b64T (b / 4), b64T (b % 4 * 16), 61, 61]
  | [b, c] => [b64T (b / 4), b64T (b % 4 * 16 + c / 16), b64T (c % 16 * 4), 61]
  | b :: c :: d :: rest =>
      b64T (b / 4) :: b64T (b % 4 * 16 + c / 16) :: b64T (c % 16 * 4 + d / 64) ::
        b64T (d % 64) :: b64encode rest

/-- Decode one 4-character group: the bytes it carries, and whether it was
a padded (hence final) group. -/
def b64DecodeChunk (e1 e2 e3 e4 : Nat) : Option (List Nat × Bool) :=
  (b64D e1).bind fun s0 =>
  (b64D e2).bind fun s1 =>
  if e3 = 61 then
    if e4 = 61 then some ([s0 * 4 + s1 / 16], true) else none
  else
    (b64D e3).bind fun s2 =>
    if e4 = 61 then some ([s0 * 4 + s1 / 16, s1 % 16 * 16 + s2 / 4], true)
    else
      (b64D e4).bind fun s3 =>
      some ([s0 * 4 + s1 / 16, s1 % 16 * 16 + s2 / 4, s2 % 4 * 64 + s3], false)

/-- Decode a base64 string: 4-character groups, padding only at the end. -/
def b64decode : List Nat → Option (List Nat)
  | [] => some []
  | e1 :: e2 :: e3 :: e4 :: rest =>
    match b64DecodeChunk e1 e2 e3 e4 with
    | some (chunk, final) =>
      if final then if rest = [] then some chunk else none
      else (b64decode rest).map (chunk ++ ·)
    | none => none
  | _ => none

/-- Base64 round trip on byte lists. -/
theorem b64_roundtrip : ∀ bs : List Nat, (∀ b ∈ bs, b < 256) →
    b64decode (b64encode bs) = some bs
  | [], _ => rfl
  | [b], h => by
      have hb : b < 256 := h b (by simp)
      rw [b64encode, b64decode, b64DecodeChunk]
      rw [b64D_T _ (by omega), b64D_T _ (by omega)]
      simp only [Option.some_bind, reduceIte]
      refine congrArg some ?_
      refine congrArg (· :: []) ?_
      omega
  | [b, c], h => by
      have hb : b < 256 := h b (by simp)
      have hc : c < 256 := h c (by simp)
      rw [b64encode, b64decode, b64DecodeChunk]
      rw [b64D_T _ (by omega), b64D_T _ (by omega)]
      simp only [Option.some_bind]
      rw [if_neg (b64T_ne_61 _ (by omega)), b64D_T _ (by omega)]
      simp only [Option.some_bind, reduceIte]
      refine congrArg some ?_
      have h1 : b / 4 * 4 + (b % 4 * 16 + c / 16) / 16 = b := by omega
      have h2 : (b % 4 * 16 + c / 16) % 16 * 16 + c % 16 * 4 / 4 = c := by omega
      rw [h1, h2]
  | b :: c :: d :: e :: rest, h => by
      have hb : b < 256 := h b (by simp)
      have hc : c < 256 := h c (by simp)
      have hd : d < 256 := h d (by simp)
      have ih := b64_roundtrip (e :: rest) (fun x hx => h x (by simp at hx ⊢; tauto))
      rw [b64encode, b64decode, b64DecodeChunk]
      rw [b64D_T _ (by omega), b64D_T _ (by omega)]
      simp only [Option.some_bind]
      rw [if_neg (b64T_ne_61 _ (by omega)), b64D_T _ (by omega)]
      simp only [Option.some_bind]
      rw [if_neg (b64T_ne_61 _ (by omega)), b64D_T _ (by omega)]
      simp only [Option.some_bind, Bool.false_eq_true, reduceIte, ih, Option.map_some]
      refine congrArg some ?_
      have h1 : b / 4 * 4 + (b % 4 * 16 + c / 16) / 16 = b := by omega
      have h2 : (b % 4 * 16 + c / 16) % 16 * 16 + (c % 16 * 4 + d / 64) / 4 = c := by omega
      have h3 : (c % 16 * 4 + d / 64) % 4 * 64 + d % 64 = d := by omega
      rw [h1, h2, h3]
      simp
  | [b, c, d], h => by
      have hb : b < 256 := h b (by simp)
      have hc : c < 256 := h c (by simp)
      have hd : d < 256 := h d (by simp)
      rw [b64encode, b64decode, b64DecodeChunk]
      rw [b64D_T _ (by omega), b64D_T _ (by omega)]
      simp only [Option.some_bind]
      rw [if_neg (b64T_ne_61 _ (by omega)), b64D_T _ (by omega)]
      simp only [Option.some_bind]
      rw [if_neg (b64T_ne_61 _ (by omega)), b64D_T _ (by omega)]
      simp only [Option.some_bind, Bool.false_eq_true, reduceIte, b64decode, Option.map_some]
      refine congrArg some ?_
      have h1 : b / 4 * 4 + (b % 4 * 16 + c / 16) / 16 = b := by omega
      have h2 : (b % 4 * 16 + c / 16) % 16 * 16 + (c % 16 * 4 + d / 64) / 4 = c := by omega
      have h3 : (c % 16 * 4 + d / 64) % 4 * 64 + d % 64 = d := by omega
      rw [h1, h2, h3]
      simp

/-! ## JSON parsing

Embeds the `json.loads` call of the import path (source line 50): a
recursive-descent parser for the JSON grammar over codepoint lists.
Numbers are integers, matching the `JVal` value domain. -/

/-- JSON whitespace. -/
def isWs (c : Nat) : Bool := c = 32 || c = 9 || c = 10 || c = 13

def skipWs : List Nat → List Nat
  | [] => []
  | c :: cs => if isWs c then skipWs cs else c :: cs

def isDigitC (c : Nat) : Bool := 48 ≤ c && c ≤ 57

/-- Consume an expected literal word. -/
def expectWord : List Nat → List Nat → Option (List Nat)
  | [], rest => some rest
  | _ :: _, [] => none
  | w :: ws, c :: cs => if c = w then expectWord ws cs else none

def parseHexDigit (c : Nat) : Option Nat :=
  if 48 ≤ c ∧ c ≤ 57 then some (c - 48)
  else if 97 ≤ c ∧ c ≤ 102 then some (c - 87)
  else if 65 ≤ c ∧ c ≤ 70 then some (c - 55)
  else none

def parseHex4 : List Nat → Option (Nat × List Nat)
  | h1 :: h2 :: h3 :: h4 :: rest =>
    (parseHexDigit h1).bind fun x1 =>
    (parseHexDigit h2).bind fun x2 =>
    (parseHexDigit h3).bind fun x3 =>
    (parseHexDigit h4).bind fun x4 =>
    some (x1 * 4096 + x2 * 256 + x3 * 16 + x4, rest)
  | _ => none

/-- After a high-surrogate `\uXXXX` escape, `json.loads` pairs it with an
immediately following low-surrogate escape when present. -/
def parsePairTail (n : Nat) (l : List Nat) : Nat × List Nat :=
  match l with
  | 92 :: 117 :: rest =>
    match parseHex4 rest with
    | some (m, rest2) =>
      if 0xDC00 ≤ m ∧ m < 0xE000 then (0x10000 + (n - 0xD800) * 1024 + (m - 0xDC00), rest2)
      else (n, l)
    | none => (n, l)
  | _ => (n, l)

def parseUEsc (l : List Nat) : Option (Nat × List Nat) :=
  (parseHex4 l).map fun p =>
    if 0xD800 ≤ p.1 ∧ p.1 < 0xDC00 then parsePairTail p.1 p.2 else p

/-- Short escape codes of the JSON grammar. -/
def escCode (e : Nat) : Option Nat :=
  if e = 34 then some 34
  else if e = 92 then some 92
  else if e = 47 then some 47
  else if e = 98 then some 8
  else if e = 102 then some 12
  else if e = 110 then some 10
  else if e = 114 then some 13
  else if e = 116 then some 9
  else none

/-- One step inside a string literal: `some (none, rest)` on the closing
quote, `some (some c, rest)` on one decoded character; control characters
are rejected, as by the strict `json.loads` scanner. -/
def strBodyStep : List Nat → Option (Option Nat × List Nat)
  | [] => none
  | c :: cs =>
    if c = 34 then some (none, cs)
    else if c = 92 then
      match cs with
      | [] => none
      | e :: cs2 =>
        if e = 117 then (parseUEsc cs2).map (fun p => (some p.1, p.2))
        else (escCode e).map (fun v => (some v, cs2))
    else if c < 32 then none
    else some (some c, cs)

def parseStrLoop : Nat → List Nat → Option (List Nat × List Nat)
  | 0, _ => none
  | fuel + 1, l =>
    match strBodyStep l with
    | some (none, rest) => some ([], rest)
    | some (some c, rest) => (parseStrLoop fuel rest).map (fun p => (c :: p.1, p.2))
    | none => none

/-- Body of a string literal, after the opening quote. -/
def parseStrBody (l : List Nat) : Option (List Nat × List Nat) :=
  parseStrLoop (l.length + 1) l

def parseDigitsLoop : Nat → List Nat → Nat × List Nat
  | acc, [] => (acc, [])
  | acc, c :: cs => if isDigitC c then parseDigitsLoop (10 * acc + (c - 48)) cs else (acc, c :: cs)

/-- An optionally signed decimal integer. -/
def parseNumber : List Nat → Option (JVal × List Nat)
  | [] => none
  | c :: cs =>
    if c = 45 then
      match cs with
      | [] => none
      | d :: ds =>
        if isDigitC d then
          some (.int (-((parseDigitsLoop (d - 48) ds).1 : Int)), (parseDigitsLoop (d - 48) ds).2)
        else none
    else if isDigitC c then
      some (.int ((parseDigitsLoop (c - 48) cs).1 : Int), (parseDigitsLoop (c - 48) cs).2)
    else none

/-- `some rest` when the first character (after whitespace) is `close`. -/
def tryClose (close : Nat) (l : List Nat) : Option (List Nat) :=
  match skipWs l with
  | [] => none
  | d :: ds => if d = close then some ds else none

/-- Expect a given punctuation character, skipping whitespace. -/
def nextIs (c : Nat) (l : List Nat) : Option (List Nat) :=
  match skipWs l with
  | [] => none
  | d :: ds => if d = c then some ds else none

/-- After a value inside a container: `(true, rest)` on a comma,
`(false, rest)` on the closing character. -/
def sepOrClose (close : Nat) (l : List Nat) : Option (Bool × List Nat) :=
  match skipWs l with
  | [] => none
  | d :: ds =>
    if d = 44 then some (true, ds)
    else if d = close then some (false, ds)
    else none

mutual

/-- Parse one JSON value; the fuel bounds the nesting the parser will
enter and is in practice the input length. -/
def parseVal : Nat → List Nat → Option (JVal × List Nat)
  | 0, _ => none
  | fuel + 1, input =>
    match skipWs input with
    | [] => none
    | c :: cs =>
      if c = 110 then (expectWord [117, 108, 108] cs).map (fun r => (.null, r))
      else if c = 116 then (expectWord [114, 117, 101] cs).map (fun r => (.bool true, r))
      else if c = 102 then (expectWord [97, 108, 115, 101] cs).map (fun r => (.bool false, r))
      else if c = 34 then (parseStrBody cs).map (fun p => (.str p.1, p.2))
      else if c = 91 then
        match tryClose 93 cs with
        | some ds => some (.arr [], ds)
        | none => (parseElemsNE fuel cs).map (fun p => (.arr p.1, p.2))
      else if c = 123 then
        match tryClose 125 cs with
        | some ds => some (.obj [], ds)
        | none => (parseMembersNE fuel cs).map (fun p => (.obj p.1, p.2))
      else parseNumber (c :: cs)

/-- One or more array elements followed by `]`. -/
def parseElemsNE : Nat → List Nat → Option (List JVal × List Nat)
  | 0, _ => none
  | fuel + 1, input =>
    (parseVal fuel input).bind fun p =>
    (sepOrClose 93 p.2).bind fun s =>
    if s.1 then (parseElemsNE fuel s.2).map (fun q => (p.1 :: q.1, q.2))
    else some ([p.1], s.2)

/-- One or more `"key": value` members followed by `}`. -/
def parseMembersNE : Nat → List Nat → Option (List (List Nat × JVal) × List Nat)
  | 0, _ => none
  | fuel + 1, input =>
    (nextIs 34 input).bind fun cs =>
    (parseStrBody cs).bind fun pk =>
    (nextIs 58 pk.2).bind fun ds =>
    (parseVal fuel ds).bind fun pv =>
    (sepOrClose 125 pv.2).bind fun s =>
    if s.1 then (parseMembersNE fuel s.2).map (fun q => ((pk.1, pv.1) :: q.1, q.2))
    else some ([(pk.1, pv.1)], s.2)

end

/-- `json.loads`: parse a complete JSON document, allowing trailing
whitespace only. -/
def parseJson (s : List Nat) : Option JVal :=
  (parseVal (s.length + 1) s).bind fun p => if skipWs p.2 = [] then some p.1 else none

/-! ## The parser restores serializer output

Support lemmas, then the main induction: `parseJson (JVal.dump v) = some v`. -/

theorem skipWs_not_ws {c : Nat} (h : isWs c = false) (l : List Nat) :
    skipWs (c :: l) = c :: l := by
  simp [skipWs, h]

theorem skipWs_ws {c : Nat} (h : isWs c = true) (l : List Nat) :
    skipWs (c :: l) = skipWs l := by
  simp [skipWs, h]

theorem expectWord_append : ∀ w rest : List Nat, expectWord w (w ++ rest) = some rest
  | [], rest => rfl
  | c :: ws, rest => by simp [expectWord, expectWord_append ws rest]

theorem parseHexDigit_hexDig (x : Nat) (h : x < 16) : parseHexDigit (hexDig x) = some x := by
  simp only [hexDig, parseHexDigit]
  split_ifs <;> first | (refine congrArg some ?_; omega) | omega

theorem escapeChar_length_pos (c : Nat) : 1 ≤ (escapeChar c).length := by
  simp only [escapeChar]
  split_ifs <;> simp

theorem strBodyStep_escape (c : Nat) (t : List Nat) :
    strBodyStep (escapeChar c ++ t) = some (some c, t) := by
  by_cases h34 : c = 34
  · subst h34; rfl
  · by_cases h92 : c = 92
    · subst h92; rfl
    · by_cases h8 : c = 8
      · subst h8; rfl
      · by_cases h9 : c = 9
        · subst h9; rfl
        · by_cases h10 : c = 10
          · subst h10; rfl
          · by_cases h12 : c = 12
            · subst h12; rfl
            · by_cases h13 : c = 13
              · subst h13; rfl
              · by_cases hlt : c < 32
                · have e1 : parseHexDigit 48 = some 0 := by decide
                  have e2 := parseHexDigit_hexDig (c / 16) (by omega)
                  have e3 := parseHexDigit_hexDig (c % 16) (by omega)
                  have hesc : escapeChar c =
                      [92, 117, 48, 48, hexDig (c / 16), hexDig (c % 16)] := by
                    simp only [escapeChar]
                    rw [if_neg h34, if_neg h92, if_neg h8, if_neg h9, if_neg h10, if_neg h12,
                      if_neg h13, if_pos hlt]
                  rw [hesc]
                  simp only [List.cons_append, List.nil_append, strBodyStep, reduceIte,
                    parseUEsc, parseHex4, e1, e2, e3, Option.some_bind, Option.map_some]
                  have hval : 0 * 4096 + 0 * 256 + c / 16 * 16 + c % 16 = c := by omega
                  simp only [hval, Option.map_some', reduceIte, Nat.reduceEqDiff]
                  rw [if_neg (by omega : ¬(55296 ≤ c ∧ c < 56320))]
                · simp only [escapeChar]
                  rw [if_neg h34, if_neg h92, if_neg h8, if_neg h9, if_neg h10, if_neg h12,
                    if_neg h13, if_neg hlt]
                  simp only [List.cons_append, List.nil_append, strBodyStep]
                  rw [if_neg h34, if_neg h92, if_neg (by omega : ¬c < 32)]

theorem parseStrLoop_dump : ∀ (s : List Nat) (fuel : Nat) (rest : List Nat),
    (dumpStrBody s).length < fuel →
    parseStrLoop fuel (dumpStrBody s ++ 34 :: rest) = some (s, rest)
  | [], fuel, rest, h => by
      obtain ⟨f, rfl⟩ : ∃ f, fuel = f + 1 := ⟨fuel - 1, by omega⟩
      rw [parseStrLoop]
      rfl
  | c :: cs, fuel, rest, h => by
      obtain ⟨f, rfl⟩ : ∃ f, fuel = f + 1 := ⟨fuel - 1, by omega⟩
      have hesc := escapeChar_length_pos c
      have hlen : (dumpStrBody cs).length < f := by
        simp only [dumpStrBody, List.length_append] at h
        omega
      have ih := parseStrLoop_dump cs f rest hlen
      rw [parseStrLoop]
      rw [show dumpStrBody (c :: cs) ++ 34 :: rest =
        escapeChar c ++ (dumpStrBody cs ++ 34 :: rest) by simp [dumpStrBody]]
      rw [strBodyStep_escape]
      simp [ih]

theorem parseStrBody_dump (s rest : List Nat) :
    parseStrBody (dumpStrBody s ++ 34 :: rest) = some (s, rest) :=
  parseStrLoop_dump s _ rest (by simp [parseStrBody, List.length_append]; omega)

theorem parseDigitsLoop_digits : ∀ (ds : List Nat) (acc : Nat) (rest : List Nat),
    (∀ d ∈ ds, d < 10) → (∀ r rs, rest = r :: rs → isDigitC r = false) →
    parseDigitsLoop acc (ds.map (· + 48) ++ rest) =
      (ds.foldl (fun a d => 10 * a + d) acc, rest)
  | [], acc, rest, _, hrest => by
      cases rest with
      | nil => rfl
      | cons r rs => simp [parseDigitsLoop, hrest r rs rfl]
  | d :: ds, acc, rest, hds, hrest => by
      have hd : isDigitC (d + 48) = true := by
        have := hds d (by simp)
        simp [isDigitC]
        omega
      simp only [List.map_cons, List.cons_append, parseDigitsLoop, hd, if_true]
      rw [show d + 48 - 48 = d from by omega]
      exact parseDigitsLoop_digits ds (10 * acc + d) rest (fun x hx => hds x (by simp [hx])) hrest

theorem foldl_digits_reverse : ∀ (l : List Nat) (acc : Nat),
    List.foldl (fun a d => 10 * a + d) acc l.reverse = acc * 10 ^ l.length + Nat.ofDigits 10 l
  | [], acc => by simp
  | d :: l, acc => by
      simp only [List.reverse_cons, List.foldl_append, foldl_digits_reverse l acc,
        List.foldl_cons, List.foldl_nil, Nat.ofDigits_cons, List.length_cons]
      ring

theorem natDigitsBE_foldl (n : Nat) :
    (natDigitsBE n).foldl (fun a d => 10 * a + d) 0 = n := by
  rw [natDigitsBE]
  split_ifs with h
  · simp [h]
  · rw [show (Nat.digits 10 n).reverse = (Nat.digits 10 n).reverse from rfl,
      foldl_digits_reverse]
    simp [Nat.ofDigits_digits]

theorem natDigitsBE_lt (n : Nat) : ∀ d ∈ natDigitsBE n, d < 10 := by
  rw [natDigitsBE]
  split_ifs with h
  · intro d hd
    simp at hd
    omega
  · intro d hd
    rw [List.mem_reverse] at hd
    exact Nat.digits_lt_base (by norm_num) hd

theorem natDigitsBE_ne_nil (n : Nat) : natDigitsBE n ≠ [] := by
  rw [natDigitsBE]
  split_ifs with h
  · simp
  · simp [Nat.digits_ne_nil_iff_ne_zero, h]

theorem natDigitsBE_cons (n : Nat) : ∃ d ds, natDigitsBE n = d :: ds := by
  cases hh : natDigitsBE n with
  | nil => exact absurd hh (natDigitsBE_ne_nil n)
  | cons d ds => exact ⟨d, ds, rfl⟩

theorem foldl_digits_cons (d : Nat) (ds : List Nat) :
    List.foldl (fun a x => 10 * a + x) 0 (d :: ds) =
      List.foldl (fun a x => 10 * a + x) d ds := by
  simp

theorem parseNumber_dumpNat (m : Nat) (rest : List Nat)
    (hrest : ∀ r rs, rest = r :: rs → isDigitC r = false) :
    ∃ d t, dumpNat m = (d + 48) :: t ∧ d < 10 ∧
      parseDigitsLoop d (t ++ rest) = (m, rest) := by
  obtain ⟨d, ds, hds⟩ := natDigitsBE_cons m
  have hlt := natDigitsBE_lt m
  have hd10 : d < 10 := hlt d (by rw [hds]; simp)
  have hdig : isDigitC (d + 48) = true := by simp [isDigitC]; omega
  have hmap : dumpNat m = (d + 48) :: ds.map (· + 48) := by
    rw [dumpNat, hds]
    simp
  have hfold : (d :: ds).foldl (fun a x => 10 * a + x) 0 = m := by
    have h0 := natDigitsBE_foldl m
    rw [hds] at h0
    exact h0
  have hloop := parseDigitsLoop_digits (d :: ds) 0 rest (by rw [← hds]; exact hlt) hrest
  rw [hfold] at hloop
  simp only [List.map_cons, List.cons_append, parseDigitsLoop, hdig, if_true] at hloop
  rw [show 10 * 0 + (d + 48 - 48) = d from by omega] at hloop
  exact ⟨d, ds.map (· + 48), hmap, hd10, hloop⟩

theorem parseNumber_dumpInt (n : Int) (rest : List Nat)
    (hrest : ∀ r rs, rest = r :: rs → isDigitC r = false) :
    parseNumber (dumpInt n ++ rest) = some (.int n, rest) := by
  obtain ⟨d, t, hdt, hd10, hloop⟩ := parseNumber_dumpNat n.natAbs rest hrest
  have hdig : isDigitC (d + 48) = true := by simp [isDigitC]; omega
  by_cases hn : n < 0
  · rw [dumpInt, if_pos hn, hdt]
    simp only [List.cons_append, parseNumber, reduceIte, hdig, if_true]
    rw [show d + 48 - 48 = d from by omega, hloop]
    refine congrArg some ?_
    refine congrArg (fun x => (JVal.int x, rest)) ?_
    omega
  · rw [dumpInt, if_neg hn, hdt]
    simp only [List.cons_append, parseNumber]
    rw [if_neg (by omega : ¬d + 48 = 45)]
    simp only [hdig, if_true]
    rw [show d + 48 - 48 = d from by omega, hloop]
    refine congrArg some ?_
    refine congrArg (fun x => (JVal.int x, rest)) ?_
    omega

theorem dump_head (v : JVal) : ∃ c t, JVal.dump v = c :: t ∧ isWs c = false ∧
    c ≠ 93 ∧ c ≠ 125 ∧ c ≠ 44 := by
  cases v with
  | null => exact ⟨110, _, rfl, by decide, by decide, by decide, by decide⟩
  | bool b =>
    cases b with
    | true => exact ⟨116, _, rfl, by decide, by decide, by decide, by decide⟩
    | false => exact ⟨102, _, rfl, by decide, by decide, by decide, by decide⟩
  | int n =>
    show ∃ c t, dumpInt n = c :: t ∧ _
    rw [dumpInt]
    split_ifs with hn
    · exact ⟨45, _, rfl, by decide, by decide, by decide, by decide⟩
    · obtain ⟨d, ds, hds⟩ := natDigitsBE_cons n.natAbs
      have hd10 : d < 10 := natDigitsBE_lt n.natAbs d (by rw [hds]; simp)
      refine ⟨d + 48, ds.map (· + 48), by rw [dumpNat, hds]; simp, ?_, ?_, ?_, ?_⟩
      · simp [isWs]
      · omega
      · omega
      · omega
  | str s => exact ⟨34, _, rfl, by decide, by decide, by decide, by decide⟩
  | arr xs => exact ⟨91, _, rfl, by decide, by decide, by decide, by decide⟩
  | obj kvs => exact ⟨123, _, rfl, by decide, by decide, by decide, by decide⟩

theorem dump_length_pos (v : JVal) : 1 ≤ (JVal.dump v).length := by
  obtain ⟨c, t, h, _⟩ := dump_head v
  rw [h]
  simp

theorem dumpElems_head (y : JVal) (ys : List JVal) : ∃ c t, dumpElems (y :: ys) = c :: t ∧
    isWs c = false ∧ c ≠ 93 ∧ c ≠ 125 ∧ c ≠ 44 := by
  obtain ⟨c, t, h, hw, h1, h2, h3⟩ := dump_head y
  cases ys with
  | nil => exact ⟨c, t, by rw [dumpElems, h], hw, h1, h2, h3⟩
  | cons z zs =>
    exact ⟨c, t ++ [44, 32] ++ dumpElems (z :: zs), by rw [dumpElems, h]; simp, hw, h1, h2, h3⟩

theorem dumpKVs_head (k : List Nat) (v : JVal) (kvs : List (List Nat × JVal)) :
    ∃ t, dumpKVs ((k, v) :: kvs) = 34 :: t := by
  cases kvs with
  | nil =>
    refine ⟨dumpStrBody k ++ 34 :: 58 :: 32 :: v.dump, ?_⟩
    rw [dumpKVs, dumpStr]
    simp
  | cons m ms =>
    refine ⟨dumpStrBody k ++ 34 :: 58 :: 32 :: (v.dump ++ 44 :: 32 :: dumpKVs (m :: ms)), ?_⟩
    rw [dumpKVs, dumpStr]
    simp

theorem tryClose_some {close : Nat} {l ds : List Nat}
    (h : skipWs l = close :: ds) : tryClose close l = some ds := by
  simp [tryClose, h]

theorem tryClose_none {close d : Nat} {l ds : List Nat}
    (h : skipWs l = d :: ds) (hd : d ≠ close) : tryClose close l = none := by
  simp [tryClose, h, hd]

theorem nextIs_some {c : Nat} {l ds : List Nat}
    (h : skipWs l = c :: ds) : nextIs c l = some ds := by
  simp [nextIs, h]

theorem sepOrClose_comma {close : Nat} {l ds : List Nat}
    (h : skipWs l = 44 :: ds) : sepOrClose close l = some (true, ds) := by
  simp [sepOrClose, h]

theorem sepOrClose_close {close : Nat} {l ds : List Nat}
    (h : skipWs l = close :: ds) (hc : ¬close = 44) : sepOrClose close l = some (false, ds) := by
  simp [sepOrClose, h, hc]

/-- Suffixes a serialized value may legitimately be followed by inside a
document: nothing, or a separator/closer. -/
def Delim (l : List Nat) : Prop :=
  l = [] ∨ ∃ c cs, l = c :: cs ∧ (c = 44 ∨ c = 93 ∨ c = 125)

theorem Delim.not_digit {l : List Nat} (h : Delim l) :
    ∀ r rs, l = r :: rs → isDigitC r = false := by
  intro r rs hl
  rcases h with h | ⟨c, cs, hc, hval⟩
  · rw [hl] at h
    exact absurd h (by simp)
  · rw [hl] at hc
    obtain ⟨rfl, rfl⟩ : r = c ∧ rs = cs := by
      constructor <;> [exact (List.cons.injEq _ _ _ _ ▸ hc).1; exact (List.cons.injEq _ _ _ _ ▸ hc).2]
    rcases hval with rfl | rfl | rfl <;> decide

theorem parse_dump_main : ∀ fuel : Nat,
    (∀ v input rest, skipWs input = JVal.dump v ++ rest → Delim rest →
      (JVal.dump v).length < fuel → parseVal fuel input = some (v, rest)) ∧
    (∀ xs input rest, xs ≠ [] → skipWs input = dumpElems xs ++ 93 :: rest →
      (dumpElems xs).length + 1 < fuel → parseElemsNE fuel input = some (xs, rest)) ∧
    (∀ kvs input rest, kvs ≠ [] → skipWs input = dumpKVs kvs ++ 125 :: rest →
      (dumpKVs kvs).length + 1 < fuel → parseMembersNE fuel input = some (kvs, rest)) := by
  intro fuel
  induction fuel with
  | zero =>
    refine ⟨fun v input rest _ _ h => ?_, fun xs input rest _ _ h => ?_,
      fun kvs input rest _ _ h => ?_⟩ <;> omega
  | succ fuel ih =>
    obtain ⟨ihS, ihE, ihM⟩ := ih
    refine ⟨?_, ?_, ?_⟩
    · -- parseVal restores any serialized value
      intro v input rest hin hrest hlen
      rw [parseVal, hin]
      cases v with
      | null => simp [JVal.dump, expectWord]
      | bool b => cases b <;> simp [JVal.dump, expectWord]
      | int n =>
        have hnum := parseNumber_dumpInt n rest (Delim.not_digit hrest)
        by_cases hn : n < 0
        · have hd : JVal.dump (.int n) = 45 :: dumpNat n.natAbs := by
            simp [JVal.dump, dumpInt, hn]
          rw [show dumpInt n = 45 :: dumpNat n.natAbs from by rw [dumpInt, if_pos hn]] at hnum
          rw [hd]
          simp only [List.cons_append] at hnum ⊢
          simp [hnum]
        · obtain ⟨d, t, hdt, hd10, _⟩ := parseNumber_dumpNat n.natAbs rest (Delim.not_digit hrest)
          have hd : JVal.dump (.int n) = (d + 48) :: t := by
            simp only [JVal.dump, dumpInt, if_neg hn]
            exact hdt
          rw [show dumpInt n = (d + 48) :: t from by rw [dumpInt, if_neg hn]; exact hdt] at hnum
          rw [hd]
          simp only [List.cons_append] at hnum ⊢
          rw [if_neg (by omega : ¬d + 48 = 110), if_neg (by omega : ¬d + 48 = 116),
            if_neg (by omega : ¬d + 48 = 102), if_neg (by omega : ¬d + 48 = 34),
            if_neg (by omega : ¬d + 48 = 91), if_neg (by omega : ¬d + 48 = 123)]
          exact hnum
      | str s =>
        have hd : JVal.dump (.str s) ++ rest = 34 :: (dumpStrBody s ++ 34 :: rest) := by
          simp [JVal.dump, dumpStr]
        rw [hd]
        simp [parseStrBody_dump]
      | arr xs =>
        cases xs with
        | nil =>
          have hd : JVal.dump (.arr []) ++ rest = 91 :: 93 :: rest := by
            simp [JVal.dump, dumpElems]
          rw [hd]
          have ht : tryClose 93 (93 :: rest) = some rest :=
            tryClose_some (skipWs_not_ws (by decide) rest)
          simp [ht]
        | cons y ys =>
          obtain ⟨c0, t0, h0, hw0, h93, _, _⟩ := dumpElems_head y ys
          have hd : JVal.dump (.arr (y :: ys)) ++ rest =
              91 :: (dumpElems (y :: ys) ++ 93 :: rest) := by
            simp [JVal.dump]
          rw [hd]
          have hsk : skipWs (dumpElems (y :: ys) ++ 93 :: rest) =
              dumpElems (y :: ys) ++ 93 :: rest := by
            rw [h0, List.cons_append]
            exact skipWs_not_ws hw0 _
          have htc : tryClose 93 (dumpElems (y :: ys) ++ 93 :: rest) = none := by
            have hx : skipWs (dumpElems (y :: ys) ++ 93 :: rest) = c0 :: (t0 ++ 93 :: rest) := by
              rw [hsk, h0, List.cons_append]
            exact tryClose_none hx h93
          have hbound : (dumpElems (y :: ys)).length + 1 < fuel := by
            rw [show JVal.dump (.arr (y :: ys)) = 91 :: dumpElems (y :: ys) ++ [93] from by
              simp [JVal.dump]] at hlen
            simp only [List.length_cons, List.length_append, List.length_nil] at hlen
            omega
          have harr := ihE (y :: ys) (dumpElems (y :: ys) ++ 93 :: rest) rest (by simp)
            hsk hbound
          simp [htc, harr]
      | obj kvs =>
        cases kvs with
        | nil =>
          have hd : JVal.dump (.obj []) ++ rest = 123 :: 125 :: rest := by
            simp [JVal.dump, dumpKVs]
          rw [hd]
          have ht : tryClose 125 (125 :: rest) = some rest :=
            tryClose_some (skipWs_not_ws (by decide) rest)
          simp [ht]
        | cons p kvs' =>
          obtain ⟨k, v⟩ := p
          obtain ⟨t0, h0⟩ := dumpKVs_head k v kvs'
          have hd : JVal.dump (.obj ((k, v) :: kvs')) ++ rest =
              123 :: (dumpKVs ((k, v) :: kvs') ++ 125 :: rest) := by
            simp [JVal.dump]
          rw [hd]
          have hsk : skipWs (dumpKVs ((k, v) :: kvs') ++ 125 :: rest) =
              dumpKVs ((k, v) :: kvs') ++ 125 :: rest := by
            rw [h0, List.cons_append]
            exact skipWs_not_ws (by decide) _
          have htc : tryClose 125 (dumpKVs ((k, v) :: kvs') ++ 125 :: rest) = none := by
            have hx : skipWs (dumpKVs ((k, v) :: kvs') ++ 125 :: rest) =
                34 :: (t0 ++ 125 :: rest) := by
              rw [hsk, h0, List.cons_append]
            exact tryClose_none hx (by decide)
          have hbound : (dumpKVs ((k, v) :: kvs')).length + 1 < fuel := by
            rw [show JVal.dump (.obj ((k, v) :: kvs')) =
              123 :: dumpKVs ((k, v) :: kvs') ++ [125] from by simp [JVal.dump]] at hlen
            simp only [List.length_cons, List.length_append, List.length_nil] at hlen
            omega
          have hobj := ihM ((k, v) :: kvs') (dumpKVs ((k, v) :: kvs') ++ 125 :: rest) rest
            (by simp) hsk hbound
          simp [htc, hobj]
    · -- parseElemsNE restores a serialized nonempty element list
      intro xs input rest hne hin hlen
      obtain ⟨y, ys, rfl⟩ : ∃ y ys, xs = y :: ys := by
        cases xs with
        | nil => exact absurd rfl hne
        | cons y ys => exact ⟨y, ys, rfl⟩
      rw [parseElemsNE]
      cases ys with
      | nil =>
        have hS := ihS y input (93 :: rest) (by rw [hin]; simp [dumpElems])
          (Or.inr ⟨93, rest, rfl, by omega⟩)
          (by rw [show dumpElems [y] = JVal.dump y from by rw [dumpElems]] at hlen; omega)
        rw [hS]
        simp only [Option.some_bind]
        have hsep : sepOrClose 93 (93 :: rest) = some (false, rest) :=
          sepOrClose_close (skipWs_not_ws (by decide) rest) (by decide)
        rw [hsep]
        simp
      | cons z zs =>
        have hde : dumpElems (y :: z :: zs) =
            JVal.dump y ++ [44, 32] ++ dumpElems (z :: zs) := by
          rw [dumpElems]
        have hlen2 : (JVal.dump y).length + 2 + (dumpElems (z :: zs)).length + 1 < fuel + 1 := by
          rw [hde] at hlen
          simp only [List.length_append, List.length_cons, List.length_nil] at hlen
          omega
        have hpos := dump_length_pos y
        have hS := ihS y input (44 :: 32 :: (dumpElems (z :: zs) ++ 93 :: rest))
          (by rw [hin, hde]; simp) (Or.inr ⟨44, _, rfl, by omega⟩) (by omega)
        rw [hS]
        simp only [Option.some_bind]
        have hsep : sepOrClose 93 (44 :: 32 :: (dumpElems (z :: zs) ++ 93 :: rest)) =
            some (true, 32 :: (dumpElems (z :: zs) ++ 93 :: rest)) :=
          sepOrClose_comma (skipWs_not_ws (by decide) _)
        rw [hsep]
        simp only [Option.some_bind]
        obtain ⟨c0, t0, h0, hw0, _, _, _⟩ := dumpElems_head z zs
        have hsk2 : skipWs (32 :: (dumpElems (z :: zs) ++ 93 :: rest)) =
            dumpElems (z :: zs) ++ 93 :: rest := by
          rw [skipWs_ws (by decide), h0, List.cons_append]
          exact skipWs_not_ws hw0 _
        have hrec := ihE (z :: zs) (32 :: (dumpElems (z :: zs) ++ 93 :: rest)) rest (by simp)
          hsk2 (by omega)
        rw [hrec]
        simp
    · -- parseMembersNE restores a serialized nonempty member list
      intro kvs input rest hne hin hlen
      obtain ⟨p, kvs', rfl⟩ : ∃ p kvs', kvs = p :: kvs' := by
        cases kvs with
        | nil => exact absurd rfl hne
        | cons p kvs' => exact ⟨p, kvs', rfl⟩
      obtain ⟨k, v⟩ := p
      rw [parseMembersNE]
      cases kvs' with
      | nil =>
        have hx : skipWs input =
            34 :: (dumpStrBody k ++ 34 :: (58 :: (32 :: (JVal.dump v ++ 125 :: rest)))) := by
          rw [hin, dumpKVs, dumpStr]
          simp
        rw [nextIs_some hx]
        simp only [Option.some_bind]
        rw [parseStrBody_dump]
        simp only [Option.some_bind]
        rw [nextIs_some (skipWs_not_ws (by decide)
          (32 :: (JVal.dump v ++ 125 :: rest)) :
            skipWs (58 :: (32 :: (JVal.dump v ++ 125 :: rest))) = _)]
        simp only [Option.some_bind]
        obtain ⟨c0, t0, h0, hw0, _, _, _⟩ := dump_head v
        have hskv : skipWs (32 :: (JVal.dump v ++ 125 :: rest)) =
            JVal.dump v ++ 125 :: rest := by
          rw [skipWs_ws (by decide), h0, List.cons_append]
          exact skipWs_not_ws hw0 _
        have hbound : (JVal.dump v).length < fuel := by
          rw [dumpKVs] at hlen
          simp only [dumpStr, List.length_append, List.length_cons, List.length_nil] at hlen
          omega
        have hS := ihS v (32 :: (JVal.dump v ++ 125 :: rest)) (125 :: rest) hskv
          (Or.inr ⟨125, rest, rfl, by omega⟩) hbound
        rw [hS]
        simp only [Option.some_bind]
        have hsep : sepOrClose 125 (125 :: rest) = some (false, rest) :=
          sepOrClose_close (skipWs_not_ws (by decide) rest) (by decide)
        rw [hsep]
        simp
      | cons m ms =>
        obtain ⟨k2, v2⟩ := m
        have hx : skipWs input = 34 :: (dumpStrBody k ++ 34 :: (58 :: (32 :: (JVal.dump v ++
            44 :: (32 :: (dumpKVs ((k2, v2) :: ms) ++ 125 :: rest)))))) := by
          rw [hin, dumpKVs, dumpStr]
          simp
        rw [nextIs_some hx]
        simp only [Option.some_bind]
        rw [parseStrBody_dump]
        simp only [Option.some_bind]
        rw [nextIs_some (skipWs_not_ws (by decide) _ :
          skipWs (58 :: (32 :: (JVal.dump v ++
            44 :: (32 :: (dumpKVs ((k2, v2) :: ms) ++ 125 :: rest))))) = _)]
        simp only [Option.some_bind]
        obtain ⟨c0, t0, h0, hw0, _, _, _⟩ := dump_head v
        have hskv : skipWs (32 :: (JVal.dump v ++
            44 :: (32 :: (dumpKVs ((k2, v2) :: ms) ++ 125 :: rest)))) =
            JVal.dump v ++ 44 :: (32 :: (dumpKVs ((k2, v2) :: ms) ++ 125 :: rest)) := by
          rw [skipWs_ws (by decide), h0, List.cons_append]
          exact skipWs_not_ws hw0 _
        have hlen2 : (dumpStr k).length + 2 + (JVal.dump v).length + 2 +
            (dumpKVs ((k2, v2) :: ms)).length + 1 < fuel + 1 := by
          rw [dumpKVs] at hlen
          simp only [List.length_append, List.length_cons, List.length_nil] at hlen
          omega
        have hstrpos : 2 ≤ (dumpStr k).length := by
          rw [dumpStr]
          simp
        have hS := ihS v (32 :: (JVal.dump v ++
            44 :: (32 :: (dumpKVs ((k2, v2) :: ms) ++ 125 :: rest))))
          (44 :: (32 :: (dumpKVs ((k2, v2) :: ms) ++ 125 :: rest))) hskv
          (Or.inr ⟨44, _, rfl, by omega⟩) (by omega)
        rw [hS]
        simp only [Option.some_bind]
        have hsep : sepOrClose 125 (44 :: (32 :: (dumpKVs ((k2, v2) :: ms) ++ 125 :: rest))) =
            some (true, 32 :: (dumpKVs ((k2, v2) :: ms) ++ 125 :: rest)) :=
          sepOrClose_comma (skipWs_not_ws (by decide) _)
        rw [hsep]
        simp only [Option.some_bind]
        obtain ⟨t1, h1⟩ := dumpKVs_head k2 v2 ms
        have hsk2 : skipWs (32 :: (dumpKVs ((k2, v2) :: ms) ++ 125 :: rest)) =
            dumpKVs ((k2, v2) :: ms) ++ 125 :: rest := by
          rw [skipWs_ws (by decide), h1, List.cons_append]
          exact skipWs_not_ws (by decide) _
        have hpos := dump_length_pos v
        have hrec := ihM ((k2, v2) :: ms) (32 :: (dumpKVs ((k2, v2) :: ms) ++ 125 :: rest))
          rest (by simp) hsk2 (by omega)
        rw [hrec]
        simp

/-- The parser restores exactly what the serializer produced. -/
theorem parseJson_dump (v : JVal) : parseJson (JVal.dump v) = some v := by
  obtain ⟨c, t, h, hw, _⟩ := dump_head v
  have hsk : skipWs (JVal.dump v) = JVal.dump v ++ [] := by
    rw [List.append_nil, h]
    exact skipWs_not_ws hw t
  have hmain := (parse_dump_main ((JVal.dump v).length + 1)).1 v (JVal.dump v) [] hsk
    (Or.inl rfl) (by omega)
  simp [parseJson, hmain, skipWs]

theorem escapeChar_valid (c : Nat) (h : validCp c = true) :
    ∀ x ∈ escapeChar c, validCp x = true := by
  simp only [escapeChar]
  split_ifs <;> intro x hx <;> simp at hx
  · rcases hx with rfl | rfl <;> decide
  · rcases hx with rfl | rfl <;> decide
  · rcases hx with rfl | rfl <;> decide
  · rcases hx with rfl | rfl <;> decide
  · rcases hx with rfl | rfl <;> decide
  · rcases hx with rfl | rfl <;> decide
  · rcases hx with rfl | rfl <;> decide
  · rcases hx with rfl | rfl | rfl | rfl | rfl | rfl <;>
      simp [validCp, hexDig] <;> split_ifs <;> omega
  · rw [hx]
    exact h

theorem dumpStrBody_valid : ∀ s : List Nat, (∀ c ∈ s, validCp c = true) →
    ∀ x ∈ dumpStrBody s, validCp x = true
  | [], _ => by simp [dumpStrBody]
  | c :: cs, h => by
      intro x hx
      rw [dumpStrBody] at hx
      rcases List.mem_append.mp hx with hx | hx
      · exact escapeChar_valid c (h c (by simp)) x hx
      · exact dumpStrBody_valid cs (fun y hy => h y (by simp [hy])) x hx

theorem dumpStr_valid (s : List Nat) (h : ∀ c ∈ s, validCp c = true) :
    ∀ x ∈ dumpStr s, validCp x = true := by
  intro x hx
  rw [dumpStr] at hx
  rcases List.mem_cons.mp hx with rfl | hx
  · decide
  · rcases List.mem_append.mp hx with hx | hx
    · exact dumpStrBody_valid s h x hx
    · simp at hx
      rw [hx]
      decide

theorem dumpInt_valid (n : Int) : ∀ x ∈ dumpInt n, validCp x = true := by
  intro x hx
  rw [dumpInt] at hx
  have hnat : ∀ m : Nat, ∀ y ∈ dumpNat m, validCp y = true := by
    intro m y hy
    rw [dumpNat] at hy
    simp only [List.mem_map] at hy
    obtain ⟨d, hd, rfl⟩ := hy
    have := natDigitsBE_lt m d hd
    simp [validCp]
    omega
  split_ifs at hx
  · rcases List.mem_cons.mp hx with rfl | hx
    · decide
    · exact hnat _ x hx
  · exact hnat _ x hx

mutual

theorem dump_valid : ∀ v : JVal, JVal.validB v = true → ∀ c ∈ JVal.dump v, validCp c = true
  | .null, _ => by
      intro c hc
      simp [JVal.dump] at hc
      rcases hc with rfl | rfl | rfl | rfl <;> decide
  | .bool true, _ => by
      intro c hc
      simp [JVal.dump] at hc
      rcases hc with rfl | rfl | rfl | rfl <;> decide
  | .bool false, _ => by
      intro c hc
      simp [JVal.dump] at hc
      rcases hc with rfl | rfl | rfl | rfl | rfl <;> decide
  | .int n, _ => by
      intro c hc
      rw [JVal.dump] at hc
      exact dumpInt_valid n c hc
  | .str s, h => by
      intro c hc
      rw [JVal.dump] at hc
      refine dumpStr_valid s ?_ c hc
      simpa [JVal.validB, List.all_eq_true] using h
  | .arr xs, h => by
      intro c hc
      rw [JVal.dump] at hc
      rcases List.mem_cons.mp hc with rfl | hc
      · decide
      · rcases List.mem_append.mp hc with hc | hc
        · exact dumpElems_valid xs (by simpa [JVal.validB] using h) c hc
        · simp at hc
          rw [hc]
          decide
  | .obj kvs, h => by
      intro c hc
      rw [JVal.dump] at hc
      rcases List.mem_cons.mp hc with rfl | hc
      · decide
      · rcases List.mem_append.mp hc with hc | hc
        · exact dumpKVs_valid kvs (by simpa [JVal.validB] using h) c hc
        · simp at hc
          rw [hc]
          decide

theorem dumpElems_valid : ∀ xs : List JVal, validElems xs = true →
    ∀ c ∈ dumpElems xs, validCp c = true
  | [], _ => by simp [dumpElems]
  | [x], h => by
      intro c hc
      rw [dumpElems] at hc
      exact dump_valid x (by simpa [validElems] using h) c hc
  | x :: y :: ys, h => by
      intro c hc
      rw [dumpElems] at hc
      have hx : x.validB = true := by
        simp [validElems] at h
        tauto
      have hys : validElems (y :: ys) = true := by
        simp [validElems] at h ⊢
        tauto
      rcases List.mem_append.mp hc with hc | hc
      · rcases List.mem_append.mp hc with hc | hc
        · exact dump_valid x hx c hc
        · simp at hc
          rcases hc with rfl | rfl <;> decide
      · exact dumpElems_valid (y :: ys) hys c hc

theorem dumpKVs_valid : ∀ kvs : List (List Nat × JVal), validKVs kvs = true →
    ∀ c ∈ dumpKVs kvs, validCp c = true
  | [], _ => by simp [dumpKVs]
  | [(k, v)], h => by
      intro c hc
      rw [dumpKVs] at hc
      have hk : ∀ x ∈ k, validCp x = true := by
        simp [validKVs, List.all_eq_true] at h
        tauto
      have hv : v.validB = true := by
        simp [validKVs] at h
        tauto
      rcases List.mem_append.mp hc with hc | hc
      · rcases List.mem_append.mp hc with hc | hc
        · exact dumpStr_valid k hk c hc
        · simp at hc
          rcases hc with rfl | rfl <;> decide
      · exact dump_valid v hv c hc
  | (k, v) :: m :: kvs, h => by
      intro c hc
      rw [dumpKVs] at hc
      have hk : ∀ x ∈ k, validCp x = true := by
        simp [validKVs, List.all_eq_true] at h
        tauto
      have hv : v.validB = true := by
        simp [validKVs] at h
        tauto
      have hrest : validKVs (m :: kvs) = true := by
        rcases m with ⟨k2, v2⟩
        simp [validKVs] at h ⊢
        tauto
      rcases List.mem_append.mp hc with hc | hc
      · rcases List.mem_append.mp hc with hc | hc
        · rcases List.mem_append.mp hc with hc | hc
          · rcases List.mem_append.mp hc with hc | hc
            · exact dumpStr_valid k hk c hc
            · simp at hc
              rcases hc with rfl | rfl <;> decide
          · exact dump_valid v hv c hc
        · simp at hc
          rcases hc with rfl | rfl <;> decide
      · exact dumpKVs_valid (m :: kvs) hrest c hc

end

/-! ## The card codec

`encode` = `json.dumps(..., ensure_ascii=False)`, UTF-8, `b64encode`
(export_character_card, lines 177-178); `decode` = `b64decode` + the byte
decoding and parsing of `json.loads` (import_character_card, lines 49-50). -/

def cardEncode (card : JVal) : Option (List Nat) :=
  (utf8Encode (JVal.dump card)).map b64encode

def cardDecode (s : List Nat) : Option JVal :=
  (b64decode s).bind fun bytes => (utf8Decode bytes).bind parseJson

/-- The codec round trip, for any JSON value whose strings are scalar
Unicode values. -/
theorem cardCodec_roundtrip (card : JVal) (h : card.validB = true) :
    ∃ e, cardEncode card = some e ∧ cardDecode e = some card := by
  obtain ⟨bs, henc, hbytes, hdec⟩ := utf8Encode_roundtrip (JVal.dump card) (dump_valid card h)
  refine ⟨b64encode bs, by simp [cardEncode, henc], ?_⟩
  simp [cardDecode, b64_roundtrip bs hbytes, hdec, parseJson_dump]

/-! ## Placeholder Substitution

Embeds `replace_placeholders` (source lines 71-91): two sequential
`re.sub(..., flags=re.IGNORECASE)` calls with literal group-free
patterns.  Matching folds ASCII case and the one extra `re` case
equivalence relevant to the token letters (U+017F long s, which
IGNORECASE matches with `s`).  The replacement argument of `re.sub` is a
TEMPLATE, not literal text: `\g<0>` expands to the matched slice, octal
and character escapes are converted, group references beyond the
pattern's zero groups and unknown ASCII-letter escapes such as `\d`
raise `re.error` when the template is compiled, before any match is
sought. -/

def foldCase (c : Nat) : Nat :=
  if 65 ≤ c ∧ c ≤ 90 then c + 32 else if c = 383 then 115 else c

/-- Match a literal token case-insensitively at the head of the text,
returning the remainder. -/
def matchTok : List Nat → List Nat → Option (List Nat)
  | [], l => some l
  | _ :: _, [] => none
  | t :: ts, c :: cs => if foldCase c = t then matchTok ts cs else none

theorem matchTok_length : ∀ (ts l rest : List Nat), matchTok ts l = some rest →
    rest.length + ts.length = l.length
  | [], l, rest, h => by
      simp [matchTok] at h
      simp [h]
  | _ :: _, [], _, h => by simp [matchTok] at h
  | t :: ts, c :: cs, rest, h => by
      rw [matchTok] at h
      split_ifs at h
      have := matchTok_length ts cs rest h
      simp only [List.length_cons]
      omega

/-- One compiled element of an `re.sub` replacement template for the
module's group-free token patterns. -/
inductive ReplItem where
  | lit (c : Nat)
  | group0
deriving Repr, DecidableEq

def isOctC (c : Nat) : Bool := 48 ≤ c && c ≤ 55

def isAsciiLetter (c : Nat) : Bool := (65 ≤ c && c ≤ 90) || (97 ≤ c && c ≤ 122)

/-- Split a `\g<name>` group reference at the closing `>`. -/
def splitAtGt : List Nat → Option (List Nat × List Nat)
  | [] => none
  | c :: cs =>
    if c = 62 then some ([], cs)
    else (splitAtGt cs).map (fun p => (c :: p.1, p.2))

def digitsVal (name : List Nat) : Nat := name.foldl (fun a d => 10 * a + (d - 48)) 0

/-- Compile one element of an `re.sub` replacement template for a pattern
with no capturing groups: a literal character passes through; after a
backslash, `g<0>` (equivalently `g<00>`, ...) is the whole-match group,
octal escapes and the character escapes of the `re` escape table become
literals, any other group reference is an invalid-group error, an unknown
ASCII-letter escape is a bad-escape error, an unknown non-letter escape
keeps its backslash, and a trailing backslash is an error. -/
def templStep : List Nat → Option (List ReplItem × List Nat)
  | [] => none
  | c :: cs =>
    if c = 92 then
      match cs with
      | [] => none
      | e :: cs2 =>
        if e = 103 then
          match cs2 with
          | 60 :: cs3 =>
            match splitAtGt cs3 with
            | some (name, rest) =>
              if name ≠ [] ∧ name.all (fun d => isDigitC d) then
                if digitsVal name = 0 then some ([.group0], rest) else none
              else none
            | none => none
          | _ => none
        else if e = 48 then
          match cs2 with
          | d2 :: d3 :: rest =>
            if isOctC d2 then
              if isOctC d3 then some ([.lit ((d2 - 48) * 8 + (d3 - 48))], rest)
              else some ([.lit (d2 - 48)], d3 :: rest)
            else some ([.lit 0], d2 :: d3 :: rest)
          | [d2] => if isOctC d2 then some ([.lit (d2 - 48)], []) else some ([.lit 0], [d2])
          | [] => some ([.lit 0], [])
        else if isDigitC e then
          match cs2 with
          | d2 :: d3 :: rest =>
            if isOctC e ∧ isOctC d2 ∧ isOctC d3 then
              if (e - 48) * 64 + (d2 - 48) * 8 + (d3 - 48) ≤ 255 then
                some ([.lit ((e - 48) * 64 + (d2 - 48) * 8 + (d3 - 48))], rest)
              else none
            else none
          | _ => none
        else if e = 97 then some ([.lit 7], cs2)
        else if e = 98 then some ([.lit 8], cs2)
        else if e = 102 then some ([.lit 12], cs2)
        else if e = 110 then some ([.lit 10], cs2)
        else if e = 114 then some ([.lit 13], cs2)
        else if e = 116 then some ([.lit 9], cs2)
        else if e = 118 then some ([.lit 11], cs2)
        else if e = 92 then some ([.lit 92], cs2)
        else if isAsciiLetter e then none
        else some ([.lit 92, .lit e], cs2)
    else some ([.lit c], cs)

def parseTemplLoop : Nat → List Nat → Option (List ReplItem)
  | _, [] => some []
  | 0, _ :: _ => none
  | fuel + 1, c :: cs =>
    match templStep (c :: cs) with
    | some (items, rest) => (parseTemplLoop fuel rest).map (items ++ ·)
    | none => none

/-- Compile a full replacement template; `none` is the `re.error` that
`re.sub` raises eagerly, before scanning the text. -/
def parse_template (repl : List Nat) : Option (List ReplItem) :=
  parseTemplLoop repl.length repl

/-- The replacement compiles without `re.error`. -/
def templOk (repl : List Nat) : Bool := (parse_template repl).isSome

/-- Expand a compiled template at one match; `group0` is the matched
slice of the text (whose original case the IGNORECASE match keeps). -/
def expandTemplate : List ReplItem → List Nat → List Nat
  | [], _ => []
  | .lit c :: rest, m => c :: expandTemplate rest m
  | .group0 :: rest, m => m ++ expandTemplate rest m

/-- Leftmost, non-overlapping replacement of one token, expanding the
compiled template at each match; the fuel is the text length (each step
consumes at least one character). -/
def substTokF (t0 : Nat) (ts : List Nat) (tmpl : List ReplItem) : Nat → List Nat → List Nat
  | _, [] => []
  | 0, l => l
  | fuel + 1, c :: cs =>
    match matchTok (t0 :: ts) (c :: cs) with
    | some rest =>
      expandTemplate tmpl (List.take (ts.length + 1) (c :: cs)) ++ substTokF t0 ts tmpl fuel rest
    | none => c :: substTokF t0 ts tmpl fuel cs

/-- `re.sub(tok, repl, text, flags=re.IGNORECASE)` for a group-free
literal token: compile the replacement template (erroring eagerly on a
bad template, even with zero matches), then scan and replace. -/
def reSubToken (tok repl text : List Nat) : Option (List Nat) :=
  match parse_template repl with
  | none => none
  | some tmpl =>
    match tok with
    | [] => some text
    | t0 :: ts => some (substTokF t0 ts tmpl text.length text)

def charTok : List Nat := strOf "\x7b\x7bchar\x7d\x7d"

def userTok : List Nat := strOf "\x7b\x7buser\x7d\x7d"

/-- `replace_placeholders(text, char_name, user_name)` (source lines
71-91): empty text is returned unchanged before either `re.sub` runs;
otherwise the char token is replaced first, then the user token on the
result; `none` is a propagated `re.error` from either `re.sub` call. -/
def replace_placeholders (text char_name user_name : List Nat) : Option (List Nat) :=
  if text.isEmpty then some text
  else
    match reSubToken charTok char_name text with
    | none => none
    | some t1 => reSubToken userTok user_name t1

/-- The text contains a (case-insensitive) occurrence of the token. -/
def hasTok (tok : List Nat) : List Nat → Bool
  | [] => (matchTok tok []).isSome
  | c :: cs => (matchTok tok (c :: cs)).isSome || hasTok tok cs

theorem substTokF_id (t0 : Nat) (ts : List Nat) (tmpl : List ReplItem) :
    ∀ (fuel : Nat) (text : List Nat),
    hasTok (t0 :: ts) text = false → substTokF t0 ts tmpl fuel text = text
  | 0, [], _ => rfl
  | 0, _ :: _, _ => rfl
  | fuel + 1, [], _ => rfl
  | fuel + 1, c :: cs, h => by
      rw [hasTok] at h
      simp only [Bool.or_eq_false_iff] at h
      obtain ⟨h1, h2⟩ := h
      rw [substTokF]
      have hnone : matchTok (t0 :: ts) (c :: cs) = none := by
        cases hm : matchTok (t0 :: ts) (c :: cs) with
        | none => rfl
        | some r => rw [hm] at h1; simp at h1
      rw [hnone]
      rw [substTokF_id t0 ts tmpl fuel cs h2]

theorem reSubToken_id (tok repl text : List Nat) (ht : templOk repl = true)
    (h : hasTok tok text = false) : reSubToken tok repl text = some text := by
  rw [templOk] at ht
  cases hp : parse_template repl with
  | none => rw [hp] at ht; simp at ht
  | some tmpl =>
    rw [reSubToken, hp]
    cases tok with
    | nil => rfl
    | cons t0 ts =>
        show some (substTokF t0 ts tmpl text.length text) = some text
        rw [substTokF_id t0 ts tmpl text.length text h]

theorem templStep_plain {c : Nat} (h : ¬c = 92) (cs : List Nat) :
    templStep (c :: cs) = some ([.lit c], cs) := by
  simp only [templStep.eq_def]
  rw [if_neg h]

theorem parseTemplLoop_no_backslash : ∀ (repl : List Nat) (fuel : Nat),
    (∀ c ∈ repl, c ≠ 92) → repl.length ≤ fuel →
    parseTemplLoop fuel repl = some (repl.map .lit)
  | [], fuel, _, _ => by cases fuel <;> rfl
  | c :: cs, fuel, h, hlen => by
      obtain ⟨f, rfl⟩ : ∃ f, fuel = f + 1 := ⟨fuel - 1, by simp at hlen; omega⟩
      rw [parseTemplLoop, templStep_plain (h c (by simp))]
      show (parseTemplLoop f cs).map (fun x => [ReplItem.lit c] ++ x) =
        some (List.map ReplItem.lit (c :: cs))
      rw [parseTemplLoop_no_backslash cs f (fun x hx => h x (by simp [hx]))
        (by simp at hlen; omega)]
      rfl

theorem parse_template_no_backslash (repl : List Nat) (h : ∀ c ∈ repl, c ≠ 92) :
    parse_template repl = some (repl.map .lit) :=
  parseTemplLoop_no_backslash repl repl.length h le_rfl

theorem templOk_no_backslash (repl : List Nat) (h : ∀ c ∈ repl, c ≠ 92) :
    templOk repl = true := by
  rw [templOk, parse_template_no_backslash repl h]
  rfl

theorem expandTemplate_lit : ∀ (repl m : List Nat),
    expandTemplate (repl.map .lit) m = repl
  | [], _ => rfl
  | c :: cs, m => by rw [List.map_cons, expandTemplate, expandTemplate_lit cs m]

theorem substTokF_whole (t0 : Nat) (ts : List Nat) (tmpl : List ReplItem) (fuel : Nat)
    (c : Nat) (cs : List Nat) (h : matchTok (t0 :: ts) (c :: cs) = some []) :
    substTokF t0 ts tmpl (fuel + 1) (c :: cs) =
      expandTemplate tmpl (List.take (ts.length + 1) (c :: cs)) := by
  simp only [substTokF, h]
  exact List.append_nil _

/-- Substituting in a text that is exactly one whole token occurrence,
with a backslash-free replacement, yields the replacement verbatim. -/
theorem reSubToken_whole (t0 : Nat) (ts repl : List Nat)
    (hr : ∀ c ∈ repl, c ≠ 92)
    (h : matchTok (t0 :: ts) (t0 :: ts) = some []) :
    reSubToken (t0 :: ts) repl (t0 :: ts) = some repl := by
  rw [reSubToken, parse_template_no_backslash repl hr]
  show some (substTokF t0 ts (repl.map .lit) (ts.length + 1) (t0 :: ts)) = some repl
  rw [substTokF_whole t0 ts (repl.map .lit) ts.length t0 ts h]
  rw [expandTemplate_lit]

/-! ## Schema Mapper

Embeds `map_tavern_to_internal` (source lines 94-154) and
`map_internal_to_tavern` (lines 200-225) over association lists that play
the role of Python dicts. -/

/-- `dict.get(key)`: first (only, for a dict) binding of the key. -/
def get? : List (List Nat × JVal) → List Nat → Option JVal
  | [], _ => none
  | (k, v) :: kvs, key => if k = key then some v else get? kvs key

/-- Python truthiness of a JSON value. -/
def truthy : JVal → Bool
  | .null => false
  | .bool b => b
  | .int n => decide (n ≠ 0)
  | .str s => !s.isEmpty
  | .arr xs => !xs.isEmpty
  | .obj kvs => !kvs.isEmpty

/-- `' '.join` demands every part be a string; a non-string raises. -/
def allStrs : List JVal → Option (List (List Nat))
  | [] => some []
  | .str s :: rest => (allStrs rest).map (s :: ·)
  | _ :: _ => none

/-- `' '.join(parts)`. -/
def joinSpace : List (List Nat) → List Nat
  | [] => []
  | [s] => s
  | s :: t :: rest => s ++ 32 :: joinSpace (t :: rest)

def sBOT : List Nat := strOf "BOT"

def sFallback : List Nat := strOf "An AI companion"

/-- The internal character record built by `map_tavern_to_internal`. -/
structure InternalRecord where
  ai_name : JVal
  persona_desc : JVal
  greeting : JVal
  scenario : JVal
  mes_example : JVal
  raw_card : List (List Nat × JVal)
deriving Repr, DecidableEq

/-- `replace_placeholders` as called on card field values: falsy text is
returned unchanged before any `re.sub` runs; otherwise both the text and
the char name must be strings or Python raises (caught upstream), and an
`re.error` from either substitution pass propagates (caught upstream). -/
def replaceJ (text : JVal) (char_name : JVal) (user_name : List Nat) : Option JVal :=
  if truthy text = false then some text
  else
    match text, char_name with
    | .str s, .str c => (replace_placeholders s c user_name).map .str
    | _, _ => none

/-- `persona_parts` (source lines 121-127): the truthy personality and
description values, in that order. -/
def personaParts (card : List (List Nat × JVal)) : List JVal :=
  (match get? card (strOf "personality") with
   | some v => if truthy v then [v] else []
   | none => []) ++
  (match get? card (strOf "description") with
   | some v => if truthy v then [v] else []
   | none => [])

/-- Body of `map_tavern_to_internal` after the `data` unwrapping. -/
def mapCore (tavern_card : List (List Nat × JVal)) (user_name : List Nat) :
    Option InternalRecord :=
  let ai_name := (get? tavern_card (strOf "name")).getD (.str sBOT)
  match allStrs (personaParts tavern_card) with
  | none => none
  | some parts =>
    let persona_desc : List Nat := if parts.isEmpty then sFallback else joinSpace parts
    match replaceJ (.str persona_desc) ai_name user_name with
    | none => none
    | some personaJ =>
      match replaceJ ((get? tavern_card (strOf "first_mes")).getD
          ((get? tavern_card (strOf "greeting")).getD (.str []))) ai_name user_name with
      | none => none
      | some greetingJ =>
        match replaceJ ((get? tavern_card (strOf "scenario")).getD (.str []))
            ai_name user_name with
        | none => none
        | some scenarioJ =>
          match replaceJ ((get? tavern_card (strOf "mes_example")).getD (.str []))
              ai_name user_name with
          | none => none
          | some mesJ =>
            some ⟨ai_name, personaJ, greetingJ, scenarioJ, mesJ, tavern_card⟩

/-- `map_tavern_to_internal(card, user_name)`: unwrap a `data` wrapper
once, then map; a non-mapping `data` value makes the Python body raise. -/
def map_tavern_to_internal (tavern_card : List (List Nat × JVal)) (user_name : List Nat) :
    Option InternalRecord :=
  match get? tavern_card (strOf "data") with
  | some (.obj inner) => mapCore inner user_name
  | some _ => none
  | none => mapCore tavern_card user_name

/-- `map_internal_to_tavern(character_data)` (source lines 200-225). -/
def map_internal_to_tavern (character_data : List (List Nat × JVal)) :
    List (List Nat × JVal) :=
  [(strOf "name", (get? character_data (strOf "ai_name")).getD (.str sBOT)),
   (strOf "description", (get? character_data (strOf "persona_desc")).getD (.str [])),
   (strOf "personality", (get? character_data (strOf "persona_desc")).getD (.str [])),
   (strOf "first_mes", (get? character_data (strOf "greeting")).getD (.str [])),
   (strOf "scenario", (get? character_data (strOf "scenario")).getD (.str [])),
   (strOf "mes_example", (get? character_data (strOf "mes_example")).getD (.str [])),
   (strOf "creator_notes", .str (strOf "Exported from BrainDancev2")),
   (strOf "system_prompt", .str []),
   (strOf "post_history_instructions", .str []),
   (strOf "tags", .arr []),
   (strOf "creator", .str (strOf "BrainDancev2")),
   (strOf "character_version", .str (strOf "1.0")),
   (strOf "spec", .str (strOf "chara_card_v2")),
   (strOf "spec_version", .str (strOf "2.0"))]

/-! ## PNG Metadata I/O and the entry points

The imaging library is the black box of the spec: an opened image is its
text-metadata dictionary; `Image.open` failing to open the bytes is the
`none` opening outcome.  The export output is the canvas description plus
the `chara` text chunk handed to the PNG writer. -/

/-- An opened PIL image, reduced to what the module reads: `img.info`. -/
structure PILImage where
  info : List (List Nat × List Nat)
deriving Repr, DecidableEq

/-- `img.info[key]` lookup. -/
def getInfo? : List (List Nat × List Nat) → List Nat → Option (List Nat)
  | [], _ => none
  | (k, v) :: kvs, key => if k = key then some v else getInfo? kvs key

/-- The import entry point's result dictionary. -/
structure ImportResult where
  success : Bool
  error : Option (List Nat)
  image : Option PILImage
  character_data : Option InternalRecord
deriving Repr, DecidableEq

def noCharaMsg : List Nat :=
  strOf "No character card metadata found in image. Make sure this is a valid Tavern/SillyTavern character card."

/-- The `except` branch message; the `str(e)` suffix of the exception that
was caught is abstracted away (nothing below depends on it). -/
def importErrMsg : List Nat := strOf "Error importing character card: "

/-- `import_character_card(image_data, user_name)` (source lines 16-68);
`opened` is the outcome of the `Image.open` call on `image_data`. -/
def import_character_card (opened : Option PILImage) (user_name : List Nat) : ImportResult :=
  match opened with
  | none => ⟨false, some importErrMsg, none, none⟩
  | some img =>
    match getInfo? img.info (strOf "chara") with
    | none => ⟨false, some noCharaMsg, some img, none⟩
    | some chara_b64 =>
      match cardDecode chara_b64 with
      | some (.obj kvs) =>
        match map_tavern_to_internal kvs user_name with
        | some mapped => ⟨true, none, some img, some mapped⟩
        | none => ⟨false, some importErrMsg, none, none⟩
      | _ => ⟨false, some importErrMsg, none, none⟩

/-- The canvas `export_character_card` hands to the PNG writer: the given
image, or the synthesized default. -/
inductive ExportCanvas where
  | provided (img : PILImage)
  | blank (width height : Nat) (color : List Nat)
deriving Repr, DecidableEq

/-- What the export writes: the canvas, and the `chara` text chunk. -/
structure ExportOutput where
  canvas : ExportCanvas
  chara : List Nat
deriving Repr, DecidableEq

def exportErrMsg : List Nat := strOf "Error exporting character card: "

/-- `export_character_card(character_data, image)` (source lines 157-197):
map to the Tavern card, serialize and base64-encode it, then attach it to
the provided or default canvas; any internal failure is re-raised as a
wrapped error. -/
def export_character_card (character_data : List (List Nat × JVal)) (image : Option PILImage) :
    Except (List Nat) ExportOutput :=
  match cardEncode (.obj (map_internal_to_tavern character_data)) with
  | none => .error exportErrMsg
  | some card_b64 =>
    .ok ⟨(match image with
          | none => .blank 400 600 (strOf "#282a36")
          | some img => .provided img), card_b64⟩

/-! ## Shared facts about the mapper -/

theorem replaceJ_str (p0 ns : List Nat) (u : List Nat) :
    replaceJ (.str p0) (.str ns) u = (replace_placeholders p0 ns u).map JVal.str := by
  cases p0 with
  | nil => rfl
  | cons c cs => rfl

theorem mapCore_fields (card : List (List Nat × JVal)) (u : List Nat) (r : InternalRecord)
    (h : mapCore card u = some r) :
    r.ai_name = (get? card (strOf "name")).getD (.str sBOT) ∧
    r.raw_card = card ∧
    (∀ parts ns, allStrs (personaParts card) = some parts →
      (get? card (strOf "name")).getD (.str sBOT) = .str ns →
      ∃ p, r.persona_desc = .str p ∧
        replace_placeholders (if parts.isEmpty then sFallback else joinSpace parts)
          ns u = some p) := by
  simp only [mapCore] at h
  cases hps : allStrs (personaParts card) with
  | none => simp only [hps] at h; exact absurd h (by simp)
  | some parts0 =>
    simp only [hps] at h
    cases hp : replaceJ (.str (if parts0.isEmpty then sFallback else joinSpace parts0))
        ((get? card (strOf "name")).getD (.str sBOT)) u with
    | none => simp only [hp] at h; exact absurd h (by simp)
    | some pJ =>
      simp only [hp] at h
      cases hg : replaceJ ((get? card (strOf "first_mes")).getD
          ((get? card (strOf "greeting")).getD (.str [])))
          ((get? card (strOf "name")).getD (.str sBOT)) u with
      | none => simp only [hg] at h; exact absurd h (by simp)
      | some gJ =>
        simp only [hg] at h
        cases hs : replaceJ ((get? card (strOf "scenario")).getD (.str []))
            ((get? card (strOf "name")).getD (.str sBOT)) u with
        | none => simp only [hs] at h; exact absurd h (by simp)
        | some sJ =>
          simp only [hs] at h
          cases hm : replaceJ ((get? card (strOf "mes_example")).getD (.str []))
              ((get? card (strOf "name")).getD (.str sBOT)) u with
          | none => simp only [hm] at h; exact absurd h (by simp)
          | some mJ =>
            simp only [hm] at h
            simp only [Option.some.injEq] at h
            subst h
            refine ⟨rfl, rfl, ?_⟩
            intro parts ns hparts hns
            obtain rfl : parts0 = parts := by
              simpa using hparts
            rw [hns, replaceJ_str] at hp
            obtain ⟨p, hp1, hp2⟩ := Option.map_eq_some'.mp hp
            exact ⟨p, by simp [← hp2], hp1⟩

theorem map_internal_fields (cd : List (List Nat × JVal)) :
    get? (map_internal_to_tavern cd) (strOf "name") =
      some ((get? cd (strOf "ai_name")).getD (.str sBOT)) ∧
    get? (map_internal_to_tavern cd) (strOf "description") =
      some ((get? cd (strOf "persona_desc")).getD (.str [])) ∧
    get? (map_internal_to_tavern cd) (strOf "personality") =
      some ((get? cd (strOf "persona_desc")).getD (.str [])) ∧
    get? (map_internal_to_tavern cd) (strOf "first_mes") =
      some ((get? cd (strOf "greeting")).getD (.str [])) ∧
    get? (map_internal_to_tavern cd) (strOf "scenario") =
      some ((get? cd (strOf "scenario")).getD (.str [])) ∧
    get? (map_internal_to_tavern cd) (strOf "mes_example") =
      some ((get? cd (strOf "mes_example")).getD (.str [])) ∧
    get? (map_internal_to_tavern cd) (strOf "creator_notes") =
      some (.str (strOf "Exported from BrainDancev2")) ∧
    get? (map_internal_to_tavern cd) (strOf "system_prompt") = some (.str []) ∧
    get? (map_internal_to_tavern cd) (strOf "post_history_instructions") =
      some (.str []) ∧
    get? (map_internal_to_tavern cd) (strOf "tags") = some (.arr []) ∧
    get? (map_internal_to_tavern cd) (strOf "creator") =
      some (.str (strOf "BrainDancev2")) ∧
    get? (map_internal_to_tavern cd) (strOf "character_version") =
      some (.str (strOf "1.0")) ∧
    get? (map_internal_to_tavern cd) (strOf "spec") =
      some (.str (strOf "chara_card_v2")) ∧
    get? (map_internal_to_tavern cd) (strOf "spec_version") =
      some (.str (strOf "2.0")) :=
  ⟨rfl, rfl, rfl, rfl, rfl, rfl, rfl, rfl, rfl, rfl, rfl, rfl, rfl, rfl⟩

/-! ## The claims -/

/-- C1: Card Codec round trip.  For every Tavern Card mapping (a JSON
object whose strings are scalar Unicode values), encoding as in
`export_character_card` (JSON-serialize with non-ASCII preserved, then
base64-encode) and then decoding as in `import_character_card`
(base64-decode, then JSON-parse) restores the identical mapping. -/
theorem cardCodec_roundtrip_C1 (kvs : List (List Nat × JVal))
    (h : JVal.validB (.obj kvs) = true) :
    ∃ e, cardEncode (.obj kvs) = some e ∧ cardDecode e = some (.obj kvs) :=
  cardCodec_roundtrip (.obj kvs) h

theorem cardCodec_roundtrip_C1_witness :
    JVal.validB (.obj [(strOf "name", .str (strOf "Ada"))]) = true ∧
    ∃ e, cardEncode (.obj [(strOf "name", .str (strOf "Ada"))]) = some e ∧
      cardDecode e = some (.obj [(strOf "name", .str (strOf "Ada"))]) :=
  ⟨by decide, cardCodec_roundtrip_C1 [(strOf "name", .str (strOf "Ada"))] (by decide)⟩

/-- C2: `import_character_card` never raises.  The embedding is a total
function into the result record (keys success, error, image,
character_data); on every failure path the result carries success=false
and a non-null error message, and success=true comes with a null error
and present character data. -/
theorem import_never_raises_C2 (opened : Option PILImage) (user_name : List Nat) :
    ((import_character_card opened user_name).success = false ↔
      ((import_character_card opened user_name).error).isSome = true) ∧
    ((import_character_card opened user_name).success = true →
      (import_character_card opened user_name).error = none ∧
      ((import_character_card opened user_name).character_data).isSome = true ∧
      ((import_character_card opened user_name).image).isSome = true) := by
  cases opened with
  | none => exact ⟨by simp [import_character_card], by simp [import_character_card]⟩
  | some img =>
    cases h1 : getInfo? img.info (strOf "chara") with
    | none => exact ⟨by simp [import_character_card, h1], by simp [import_character_card, h1]⟩
    | some cb =>
      cases h2 : cardDecode cb with
      | none =>
        exact ⟨by simp [import_character_card, h1, h2], by simp [import_character_card, h1, h2]⟩
      | some card =>
        cases card with
        | obj kvs =>
          cases h3 : map_tavern_to_internal kvs user_name with
          | none =>
            exact ⟨by simp [import_character_card, h1, h2, h3],
              by simp [import_character_card, h1, h2, h3]⟩
          | some mapped =>
            exact ⟨by simp [import_character_card, h1, h2, h3],
              by simp [import_character_card, h1, h2, h3]⟩
        | null => exact ⟨by simp [import_character_card, h1, h2], by simp [import_character_card, h1, h2]⟩
        | bool b => exact ⟨by simp [import_character_card, h1, h2], by simp [import_character_card, h1, h2]⟩
        | int n => exact ⟨by simp [import_character_card, h1, h2], by simp [import_character_card, h1, h2]⟩
        | str s => exact ⟨by simp [import_character_card, h1, h2], by simp [import_character_card, h1, h2]⟩
        | arr xs => exact ⟨by simp [import_character_card, h1, h2], by simp [import_character_card, h1, h2]⟩

/-- C3 (counterexample): the claim says `persona_desc` equals the plain
join of the truthy personality/description values; on the card
`{personality: "\x7b\x7bchar\x7d\x7d"}` the code instead stores the
placeholder-substituted join, here `"BOT"`, which differs from the join
`"\x7b\x7bchar\x7d\x7d"`. -/
theorem map_persona_C3_counterexample :
    (map_tavern_to_internal [(strOf "personality", .str (strOf "\x7b\x7bchar\x7d\x7d"))]
        (strOf "YOU")).map InternalRecord.persona_desc = some (.str (strOf "BOT")) ∧
    (JVal.str (strOf "BOT")) ≠ .str (strOf "\x7b\x7bchar\x7d\x7d") := by
  exact ⟨by decide, by decide⟩

/-- C3 (amended): for a card without a `data` wrapper, whenever
`map_tavern_to_internal` returns a record, `ai_name` is `card['name']`
defaulting to `"BOT"`, and `persona_desc` is the result of
`replace_placeholders` (char token replaced by the name, then user token
by `user_name`, the names treated as `re.sub` replacement templates)
applied to the single-space join of the truthy
`[personality, description]` values, with fallback `"An AI companion"`
when no truthy part exists. -/
theorem map_persona_C3 (card : List (List Nat × JVal)) (u : List Nat)
    (r : InternalRecord) (ns : List Nat) (parts : List (List Nat))
    (hdata : get? card (strOf "data") = none)
    (hmap : map_tavern_to_internal card u = some r)
    (hns : (get? card (strOf "name")).getD (.str sBOT) = .str ns)
    (hparts : allStrs (personaParts card) = some parts) :
    r.ai_name = (get? card (strOf "name")).getD (.str sBOT) ∧
    ∃ p, r.persona_desc = .str p ∧
      replace_placeholders (if parts.isEmpty then sFallback else joinSpace parts)
        ns u = some p := by
  rw [map_tavern_to_internal, hdata] at hmap
  obtain ⟨h1, _, h3⟩ := mapCore_fields card u r hmap
  exact ⟨h1, h3 parts ns hparts hns⟩

theorem map_persona_C3_witness :
    (map_tavern_to_internal
        [(strOf "name", .str (strOf "Ada")), (strOf "personality", .str (strOf "kind")),
         (strOf "description", .str (strOf "smart"))] (strOf "YOU")).map
      InternalRecord.persona_desc = some (.str (strOf "kind smart")) := by
  cases hmap : map_tavern_to_internal
      [(strOf "name", .str (strOf "Ada")), (strOf "personality", .str (strOf "kind")),
       (strOf "description", .str (strOf "smart"))] (strOf "YOU") with
  | none => exact absurd hmap (by decide)
  | some r =>
    obtain ⟨h1, p, hp1, hp2⟩ := map_persona_C3 _ (strOf "YOU") r (strOf "Ada")
      [strOf "kind", strOf "smart"] (by decide) hmap (by decide) (by decide)
    have hpv : p = strOf "kind smart" := by
      have hc : replace_placeholders
          (if ([strOf "kind", strOf "smart"] : List (List Nat)).isEmpty then sFallback
            else joinSpace [strOf "kind", strOf "smart"])
          (strOf "Ada") (strOf "YOU") = some (strOf "kind smart") := by decide
      exact Option.some.inj (hp2.symm.trans hc)
    rw [Option.map_some', hp1, hpv]

/-- C4 (counterexample): the claim says a token occurrence contained in an
inserted name is not expanded, so for `char_name = "\x7b\x7buser\x7d\x7d"`
the introduced user token should remain; in fact the second substitution
pass expands it to `user_name`. -/
theorem replace_recursive_C4_counterexample :
    replace_placeholders (strOf "\x7b\x7bchar\x7d\x7d") (strOf "\x7b\x7buser\x7d\x7d")
      (strOf "Bob") = some (strOf "Bob") ∧
    strOf "Bob" ≠ strOf "\x7b\x7buser\x7d\x7d" := by
  exact ⟨by decide, by decide⟩

/-- C4 (amended): substitution is two sequential `re.sub` passes treating
the inserted name as a replacement template, the char token first and
then the user token on the result.  A backslash-free `user_name`, whose
template is itself verbatim, is never re-expanded: replacing in the text
`"\x7b\x7buser\x7d\x7d"` yields `user_name` exactly, for every
`char_name` whose template compiles.  But a user token introduced through
`char_name` IS expanded by the second pass: replacing in the text
`"\x7b\x7bchar\x7d\x7d"` with `char_name = "\x7b\x7buser\x7d\x7d"` yields
`user_name`, for every backslash-free `user_name`. -/
theorem replace_two_pass_C4 :
    (∀ char_name user_name : List Nat, templOk char_name = true →
      (∀ c ∈ user_name, c ≠ 92) →
      replace_placeholders userTok char_name user_name = some user_name) ∧
    (∀ user_name : List Nat, (∀ c ∈ user_name, c ≠ 92) →
      replace_placeholders charTok userTok user_name = some user_name) := by
  constructor
  · intro c u htc hbu
    rw [replace_placeholders]
    rw [if_neg (by decide)]
    rw [reSubToken_id charTok c userTok htc (by decide)]
    show reSubToken userTok u userTok = some u
    exact reSubToken_whole 123 (strOf "\x7buser\x7d\x7d") u hbu (by decide)
  · intro u hbu
    rw [replace_placeholders]
    rw [if_neg (by decide)]
    have h1 : reSubToken charTok userTok charTok = some userTok :=
      reSubToken_whole 123 (strOf "\x7bchar\x7d\x7d") userTok (by decide) (by decide)
    rw [h1]
    show reSubToken userTok u userTok = some u
    exact reSubToken_whole 123 (strOf "\x7buser\x7d\x7d") u hbu (by decide)

theorem replace_two_pass_C4_witness :
    templOk (strOf "Ada") = true ∧
    replace_placeholders userTok (strOf "Ada") (strOf "Bob") = some (strOf "Bob") ∧
    replace_placeholders charTok userTok (strOf "Bob") = some (strOf "Bob") :=
  ⟨by decide,
   (replace_two_pass_C4).1 (strOf "Ada") (strOf "Bob") (by decide) (by decide),
   (replace_two_pass_C4).2 (strOf "Bob") (by decide)⟩

/-- C5 (counterexample): the claim says token-free text is returned equal
to the input, but `re.sub` compiles the replacement eagerly, so a bad
template escape in `user_name` (here `"\d"`) raises `re.error` even
though the text `"hello"` contains neither token. -/
theorem replace_contract_C5_counterexample :
    hasTok charTok (strOf "hello") = false ∧
    hasTok userTok (strOf "hello") = false ∧
    replace_placeholders (strOf "hello") (strOf "Ada") (strOf "\\d") = none ∧
    (none : Option (List Nat)) ≠ some (strOf "hello") := by
  exact ⟨by decide, by decide, by decide, by decide⟩

/-- C5 (amended): the substitution contract, with the names treated as
`re.sub` replacement templates.  Empty text is returned unchanged, before
either template is compiled, for any names; when both names compile as
templates, text containing no case-insensitive occurrence of either
token is returned equal to the input; every case-insensitive occurrence
of the tokens is replaced, as on the spec's example
`"\x7b\x7bCHAR\x7d\x7d likes \x7b\x7bUser\x7d\x7d"` with names Ada/Bob
and on a multi-occurrence input. -/
theorem replace_contract_C5 :
    (∀ char_name user_name : List Nat,
      replace_placeholders [] char_name user_name = some []) ∧
    (∀ text char_name user_name : List Nat,
      templOk char_name = true → templOk user_name = true →
      hasTok charTok text = false → hasTok userTok text = false →
      replace_placeholders text char_name user_name = some text) ∧
    replace_placeholders (strOf "\x7b\x7bCHAR\x7d\x7d likes \x7b\x7bUser\x7d\x7d")
      (strOf "Ada") (strOf "Bob") = some (strOf "Ada likes Bob") ∧
    replace_placeholders
      (strOf "\x7b\x7bchar\x7d\x7d\x7b\x7bCHAR\x7d\x7d and \x7b\x7buser\x7d\x7d\x7b\x7bUSER\x7d\x7d")
      (strOf "A") (strOf "B") = some (strOf "AA and BB") := by
  refine ⟨fun c u => rfl, ?_, by decide, by decide⟩
  intro text c u htc htu h1 h2
  rw [replace_placeholders]
  split_ifs with he
  · rfl
  · rw [reSubToken_id charTok c text htc h1]
    exact reSubToken_id userTok u text htu h2

theorem replace_contract_C5_witness :
    templOk (strOf "Ada") = true ∧ templOk (strOf "Bob") = true ∧
    replace_placeholders (strOf "hello") (strOf "Ada") (strOf "Bob") =
      some (strOf "hello") :=
  ⟨by decide, by decide,
   (replace_contract_C5).2.1 (strOf "hello") (strOf "Ada") (strOf "Bob")
     (by decide) (by decide) (by decide) (by decide)⟩

/-- C6 (counterexample): the claim says a wrapped card behaves as if the
function were called on `card['data']`; when `card['data']` itself
contains a `data` key that inner call would unwrap a second time, but the
code unwraps only once, so the two disagree: on
`{data: {data: {}, name: "X"}}` the code yields `ai_name = "X"`, while a
call on `card['data']` yields `ai_name = "BOT"`. -/
theorem data_unwrap_C6_counterexample :
    (map_tavern_to_internal
        [(strOf "data", .obj [(strOf "data", .obj []), (strOf "name", .str (strOf "X"))])]
        (strOf "YOU")).map InternalRecord.ai_name = some (.str (strOf "X")) ∧
    (map_tavern_to_internal [(strOf "data", .obj []), (strOf "name", .str (strOf "X"))]
        (strOf "YOU")).map InternalRecord.ai_name = some (.str sBOT) ∧
    (JVal.str (strOf "X")) ≠ .str sBOT := by
  exact ⟨by decide, by decide, by decide⟩

/-- C6 (amended): the `data` wrapper is unwrapped exactly once.  When
`card['data']` is a mapping `d` that has no `data` key of its own,
`map_tavern_to_internal card` coincides with `map_tavern_to_internal d`,
and any returned record has `raw_card = d` (the unwrapped card); in
particular `map_tavern_to_internal {data: {name: "X"}}` yields
`ai_name = "X"`. -/
theorem data_unwrap_C6 :
    (∀ (card d : List (List Nat × JVal)) (u : List Nat),
      get? card (strOf "data") = some (.obj d) →
      get? d (strOf "data") = none →
      map_tavern_to_internal card u = map_tavern_to_internal d u ∧
      (∀ r, map_tavern_to_internal card u = some r → r.raw_card = d)) ∧
    (map_tavern_to_internal [(strOf "data", .obj [(strOf "name", .str (strOf "X"))])]
        (strOf "YOU")).map InternalRecord.ai_name = some (.str (strOf "X")) := by
  constructor
  · intro card d u hc hd
    have h1 : map_tavern_to_internal card u = mapCore d u := by
      rw [map_tavern_to_internal, hc]
    have h2 : map_tavern_to_internal d u = mapCore d u := by
      rw [map_tavern_to_internal, hd]
    refine ⟨h1.trans h2.symm, ?_⟩
    intro r hr
    rw [h1] at hr
    exact (mapCore_fields d u r hr).2.1
  · decide

theorem data_unwrap_C6_witness :
    map_tavern_to_internal [(strOf "data", .obj [(strOf "name", .str (strOf "X"))])]
      (strOf "YOU") =
    map_tavern_to_internal [(strOf "name", .str (strOf "X"))] (strOf "YOU") :=
  ((data_unwrap_C6).1 [(strOf "data", .obj [(strOf "name", .str (strOf "X"))])]
    [(strOf "name", .str (strOf "X"))] (strOf "YOU") (by decide) (by decide)).1

/-- C7: `map_internal_to_tavern` fields.  For every internal record,
`description` and `personality` both carry the record's `persona_desc`
(defaulted to empty), `first_mes` carries `greeting`, `scenario` and
`mes_example` pass through, the constant metadata is exactly as listed in
the spec, and every text field is the record's value verbatim, so no
placeholder substitution is applied on export. -/
theorem map_internal_C7 (cd : List (List Nat × JVal)) :
    get? (map_internal_to_tavern cd) (strOf "description") =
      some ((get? cd (strOf "persona_desc")).getD (.str [])) ∧
    get? (map_internal_to_tavern cd) (strOf "personality") =
      some ((get? cd (strOf "persona_desc")).getD (.str [])) ∧
    get? (map_internal_to_tavern cd) (strOf "first_mes") =
      some ((get? cd (strOf "greeting")).getD (.str [])) ∧
    get? (map_internal_to_tavern cd) (strOf "scenario") =
      some ((get? cd (strOf "scenario")).getD (.str [])) ∧
    get? (map_internal_to_tavern cd) (strOf "mes_example") =
      some ((get? cd (strOf "mes_example")).getD (.str [])) ∧
    get? (map_internal_to_tavern cd) (strOf "creator_notes") =
      some (.str (strOf "Exported from BrainDancev2")) ∧
    get? (map_internal_to_tavern cd) (strOf "system_prompt") = some (.str []) ∧
    get? (map_internal_to_tavern cd) (strOf "post_history_instructions") =
      some (.str []) ∧
    get? (map_internal_to_tavern cd) (strOf "tags") = some (.arr []) ∧
    get? (map_internal_to_tavern cd) (strOf "creator") =
      some (.str (strOf "BrainDancev2")) ∧
    get? (map_internal_to_tavern cd) (strOf "character_version") =
      some (.str (strOf "1.0")) ∧
    get? (map_internal_to_tavern cd) (strOf "spec") =
      some (.str (strOf "chara_card_v2")) ∧
    get? (map_internal_to_tavern cd) (strOf "spec_version") =
      some (.str (strOf "2.0")) :=
  (map_internal_fields cd).2

/-- C8: the `image` field of failure results tracks whether the bytes
opened as an image.  When opening fails, the result has success=false,
image=null and a non-null error; when a valid image lacks a `chara`
metadata entry, the result is exactly the metadata-not-found failure with
`image` still set to the opened image. -/
theorem import_image_C8 :
    (∀ u : List Nat, (import_character_card none u).success = false ∧
      (import_character_card none u).image = none ∧
      ((import_character_card none u).error).isSome = true) ∧
    (∀ (img : PILImage) (u : List Nat), getInfo? img.info (strOf "chara") = none →
      import_character_card (some img) u = ⟨false, some noCharaMsg, some img, none⟩) := by
  constructor
  · intro u
    exact ⟨rfl, rfl, rfl⟩
  · intro img u h
    simp [import_character_card, h]

theorem import_image_C8_witness :
    import_character_card (some ⟨[]⟩) [] =
      ⟨false, some noCharaMsg, some ⟨[]⟩, none⟩ :=
  (import_image_C8).2 ⟨[]⟩ [] rfl

set_option maxHeartbeats 2000000 in
/-- C9: export with `image=None` synthesizes the fixed 400x600 placeholder
canvas filled with `"#282a36"`, attaches the `chara` text chunk holding
the base64 of the record's Tavern JSON, and that chunk decodes back to a
Tavern Card whose `spec` field is `"chara_card_v2"`. -/
theorem export_default_C9 (cd : List (List Nat × JVal))
    (h : JVal.validB (.obj (map_internal_to_tavern cd)) = true) :
    ∃ out : ExportOutput,
      export_character_card cd none = .ok out ∧
      out.canvas = .blank 400 600 (strOf "#282a36") ∧
      cardDecode out.chara = some (.obj (map_internal_to_tavern cd)) ∧
      get? (map_internal_to_tavern cd) (strOf "spec") =
        some (.str (strOf "chara_card_v2")) := by
  obtain ⟨e, he, hd⟩ := cardCodec_roundtrip (.obj (map_internal_to_tavern cd)) h
  refine ⟨⟨.blank 400 600 (strOf "#282a36"), e⟩, ?_, rfl, hd,
    (map_internal_fields cd).2.2.2.2.2.2.2.2.2.2.2.2.1⟩
  simp only [export_character_card, he]

theorem export_default_C9_witness :
    JVal.validB (.obj (map_internal_to_tavern [])) = true ∧
    ∃ out : ExportOutput,
      export_character_card [] none = .ok out ∧
      out.canvas = .blank 400 600 (strOf "#282a36") ∧
      cardDecode out.chara = some (.obj (map_internal_to_tavern [])) ∧
      get? (map_internal_to_tavern []) (strOf "spec") =
        some (.str (strOf "chara_card_v2")) :=
  ⟨by decide, export_default_C9 [] (by decide)⟩

/-- C10: `map_internal_to_tavern` is total on partial records; a missing
`ai_name` yields name `"BOT"`, and a missing `persona_desc`, `greeting`,
`scenario` or `mes_example` yields the empty string in the corresponding
Tavern fields, so export accepts any subset of the internal keys. -/
theorem map_internal_defaults_C10 (cd : List (List Nat × JVal)) :
    (get? cd (strOf "ai_name") = none →
      get? (map_internal_to_tavern cd) (strOf "name") = some (.str sBOT)) ∧
    (get? cd (strOf "persona_desc") = none →
      get? (map_internal_to_tavern cd) (strOf "description") = some (.str []) ∧
      get? (map_internal_to_tavern cd) (strOf "personality") = some (.str [])) ∧
    (get? cd (strOf "greeting") = none →
      get? (map_internal_to_tavern cd) (strOf "first_mes") = some (.str [])) ∧
    (get? cd (strOf "scenario") = none →
      get? (map_internal_to_tavern cd) (strOf "scenario") = some (.str [])) ∧
    (get? cd (strOf "mes_example") = none →
      get? (map_internal_to_tavern cd) (strOf "mes_example") = some (.str [])) := by
  obtain ⟨h1, h2, h3, h4, h5, h6, _⟩ := map_internal_fields cd
  refine ⟨fun h => ?_, fun h => ⟨?_, ?_⟩, fun h => ?_, fun h => ?_, fun h => ?_⟩
  · rw [h1, h]; rfl
  · rw [h2, h]; rfl
  · rw [h3, h]; rfl
  · rw [h4, h]; rfl
  · rw [h5, h]; rfl
  · rw [h6, h]; rfl

theorem map_internal_defaults_C10_witness :
    get? (map_internal_to_tavern []) (strOf "name") = some (.str sBOT) ∧
    get? (map_internal_to_tavern []) (strOf "description") = some (.str []) :=
  ⟨(map_internal_defaults_C10 []).1 rfl, ((map_internal_defaults_C10 []).2.1 rfl).1⟩
